import Mathlib

/-!
Verification of the technical-indicator and screening engine of an NSE stock
screener.  The Python source operates on pandas Series of float64 with NaN as
the "undefined" marker; the shallow embedding models numeric values as `ℚ`
and NaN / missing values as `none : Option ℚ`.  Comparisons against NaN are
false in pandas, which the `Option`-valued comparison helpers reproduce.
Per-symbol series are date-ordered lists (oldest first), exactly the order
`group.sort_values("trade_date")` establishes in every screen.
-/

attribute [local semireducible] Rat.add Rat.mul Rat.inv Rat.sub Rat.ofScientific

namespace Screener

/-- Floor of a rational number, as integer division of numerator by denominator. -/
def ratFloor (x : ℚ) : ℤ := Int.fdiv x.num x.den

/-- Round to the nearest integer, ties to even: the rounding used by Python's
round() and pandas Series.round on exact values. -/
def roundHalfEven (x : ℚ) : ℤ :=
  let f := ratFloor x
  let frac := x - f
  if frac < 1/2 then f
  else if 1/2 < frac then f + 1
  else if f % 2 = 0 then f else f + 1

/-- Round to `dp` decimal places (model of pandas round(x, dp)). -/
def roundTo (dp : ℕ) (x : ℚ) : ℚ := (roundHalfEven (x * 10 ^ dp) : ℚ) / 10 ^ dp

/-- Truncation toward zero (model of Python's int()). -/
def truncInt (x : ℚ) : ℤ := if 0 ≤ x then ratFloor x else -ratFloor (-x)

/-- Mean of a list of rationals; pandas mean of an empty slice is NaN, every
use below is guarded so that the 0 returned here leads to the same skip. -/
def listMean (l : List ℚ) : ℚ := l.sum / l.length

/-- NaN-aware strict less-than on optional values: any comparison with NaN is
false in pandas. -/
def oltB : Option ℚ → Option ℚ → Bool
  | some a, some b => decide (a < b)
  | _, _ => false

/-- NaN-aware equality test on optional values: NaN == NaN is false in pandas. -/
def oeqB : Option ℚ → Option ℚ → Bool
  | some a, some b => decide (a = b)
  | _, _ => false

/-- Test x > o where x is a plain float and o may be NaN. -/
def gtOB (x : ℚ) : Option ℚ → Bool
  | some y => decide (y < x)
  | none => false

/-- Test x < o where x is a plain float and o may be NaN. -/
def ltOB (x : ℚ) : Option ℚ → Bool
  | some y => decide (x < y)
  | none => false

/-- Test x ≤ o where x is a plain float and o may be NaN. -/
def leOB (x : ℚ) : Option ℚ → Bool
  | some y => decide (x ≤ y)
  | none => false

/-- Test x ≥ o where x is a plain float and o may be NaN. -/
def geOB (x : ℚ) : Option ℚ → Bool
  | some y => decide (y ≤ x)
  | none => false

/-- Last entry of an optional-valued series (iloc[-1]); NaN when empty. -/
def olast (l : List (Option ℚ)) : Option ℚ :=
  match l.getLast? with
  | some o => o
  | none => none

/-- Last entry of a string-valued series with NaN holes. -/
def olastS (l : List (Option String)) : Option String :=
  match l.getLast? with
  | some o => o
  | none => none

/-! ### Indicator library (src/indicators.py) -/

/-- Value of the rolling mean at position i: sma(series, period) =
series.rolling(window=period, min_periods=period).mean(), defined once the
trailing window holds `period` observations. -/
def smaAt (l : List ℚ) (p i : ℕ) : Option ℚ :=
  if 0 < p ∧ p ≤ i + 1 ∧ i < l.length then
    some (((l.take (i + 1)).drop (i + 1 - p)).sum / p)
  else none

/-- Simple moving average series (def sma in indicators.py). -/
def sma (l : List ℚ) (p : ℕ) : List (Option ℚ) :=
  (List.range l.length).map (smaAt l p)

/-- Exponential recurrence y[i] = (1-α)·y[i-1] + α·x[i] continued from seed y. -/
def ewmFrom (α : ℚ) (y : ℚ) : List ℚ → List ℚ
  | [] => []
  | x :: xs =>
    let y' := (1 - α) * y + α * x
    y' :: ewmFrom α y' xs

/-- ewm(alpha=α, adjust=False).mean() on a fully observed series: seeded at
the first value. -/
def ewmRec (α : ℚ) : List ℚ → List ℚ
  | [] => []
  | x :: xs => x :: ewmFrom α x xs

/-- Mask the first p-1 positions as NaN (the min_periods=p convention),
keeping the position counter i. -/
def maskFrom (p i : ℕ) : List ℚ → List (Option ℚ)
  | [] => []
  | x :: xs => (if p ≤ i + 1 then some x else none) :: maskFrom p (i + 1) xs

/-- Wilder smoothing: ewm(alpha=1/p, min_periods=p, adjust=False).mean(). -/
def wilderAvg (p : ℕ) (l : List ℚ) : List (Option ℚ) :=
  maskFrom p 0 (ewmRec (1 / (p : ℚ)) l)

/-- Per-day gains: delta.where(delta > 0, 0.0); the day-0 diff is NaN and the
where-condition on NaN is false, so position 0 is 0.0. -/
def gains : List ℚ → List ℚ
  | [] => []
  | c0 :: cs => 0 :: gainsGo c0 cs
where gainsGo : ℚ → List ℚ → List ℚ
  | _, [] => []
  | prev, x :: xs => (if 0 < x - prev then x - prev else 0) :: gainsGo x xs

/-- Per-day losses: (-delta).where(delta < 0, 0.0). -/
def losses : List ℚ → List ℚ
  | [] => []
  | c0 :: cs => 0 :: lossesGo c0 cs
where lossesGo : ℚ → List ℚ → List ℚ
  | _, [] => []
  | prev, x :: xs => (if x - prev < 0 then prev - x else 0) :: lossesGo x xs

/-- Combine one position of avg_gain and avg_loss into RSI: rs = avg_gain /
avg_loss.replace(0, nan) and RSI = 100 - 100/(1+rs); any NaN propagates. -/
def rsiCombine (g l : Option ℚ) : Option ℚ :=
  match g, l with
  | some g, some l => if l = 0 then none else some (100 - 100 / (1 + g / l))
  | _, _ => none

/-- RSI with Wilder smoothing (def rsi in indicators.py): avg_loss of zero is
replaced by NaN before the division, so RSI is undefined there. -/
def rsi (close : List ℚ) (p : ℕ) : List (Option ℚ) :=
  List.zipWith rsiCombine (wilderAvg p (gains close)) (wilderAvg p (losses close))

/-- True range continued with the previous close threaded through. -/
def trGo : List ℚ → List ℚ → List ℚ → ℚ → List ℚ
  | h0 :: hs, l0 :: ls, c0 :: cs, pc =>
    max (h0 - l0) (max |h0 - pc| |l0 - pc|) :: trGo hs ls cs c0
  | _, _, _, _ => []

/-- True range series: tr = max(high-low, |high-prev_close|, |low-prev_close|);
on day 0 the prev_close terms are NaN and the row-wise max skips NaN, leaving
high-low. -/
def trList (high low close : List ℚ) : List ℚ :=
  match high, low, close with
  | h0 :: hs, l0 :: ls, c0 :: cs => (h0 - l0) :: trGo hs ls cs c0
  | _, _, _ => []

/-- Average True Range (def atr in indicators.py): Wilder-smoothed true range. -/
def atr (high low close : List ℚ) (p : ℕ) : List (Option ℚ) :=
  wilderAvg p (trList high low close)

/-- Ratchet loop for the final upper band, carrying the previous final value:
keep the raw band when it moved below the previous final band or the previous
close broke above it, else carry the previous final value forward. -/
def fbUpperGo (ub : List (Option ℚ)) (c : List ℚ) : ℕ → ℕ → Option ℚ → List (Option ℚ)
  | i, fuel + 1, prev =>
    let raw := ub.getD i none
    let cur := if oltB raw prev || gtOB (c.getD (i - 1) 0) prev then raw else prev
    cur :: fbUpperGo ub c (i + 1) fuel cur
  | _, 0, _ => []

/-- Final upper band of the supertrend computation. -/
def finalUpper (ub : List (Option ℚ)) (c : List ℚ) : List (Option ℚ) :=
  match ub with
  | [] => []
  | u0 :: _ => u0 :: fbUpperGo ub c 1 (c.length - 1) u0

/-- Ratchet loop for the final lower band. -/
def fbLowerGo (lb : List (Option ℚ)) (c : List ℚ) : ℕ → ℕ → Option ℚ → List (Option ℚ)
  | i, fuel + 1, prev =>
    let raw := lb.getD i none
    let cur := if oltB prev raw || ltOB (c.getD (i - 1) 0) prev then raw else prev
    cur :: fbLowerGo lb c (i + 1) fuel cur
  | _, 0, _ => []

/-- Final lower band of the supertrend computation. -/
def finalLower (lb : List (Option ℚ)) (c : List ℚ) : List (Option ℚ) :=
  match lb with
  | [] => []
  | l0 :: _ => l0 :: fbLowerGo lb c 1 (c.length - 1) l0

/-- One step of the supertrend direction loop: from st[i-1] decide direction
and st[i].  st and the final bands carry NaN; NaN == NaN is false, and both
close-to-band comparisons are false against NaN. -/
def stStep (fu fl : List (Option ℚ)) (c : List ℚ) (i : ℕ) (stPrev : Option ℚ) :
    Int × Option ℚ :=
  if oeqB stPrev (fu.getD (i - 1) none) then
    if leOB (c.getD i 0) (fu.getD i none) then (-1, fu.getD i none)
    else (1, fl.getD i none)
  else
    if geOB (c.getD i 0) (fl.getD i none) then (1, fl.getD i none)
    else (-1, fu.getD i none)

/-- Direction loop of the supertrend, emitting the direction for positions
i, i+1, ... while threading st. -/
def stDirGo (fu fl : List (Option ℚ)) (c : List ℚ) : ℕ → ℕ → Option ℚ → List Int
  | i, fuel + 1, stPrev =>
    let s := stStep fu fl c i stPrev
    s.1 :: stDirGo fu fl c (i + 1) fuel s.2
  | _, 0, _ => []

/-- Supertrend direction series: initialized to 1 at every position, the loop
overwrites positions 1..n-1; st starts as all-NaN. -/
def stDirList (fu fl : List (Option ℚ)) (c : List ℚ) : List Int :=
  match c with
  | [] => []
  | _ :: _ => 1 :: stDirGo fu fl c 1 (c.length - 1) none

/-- Supertrend indicator (def supertrend in indicators.py).  The final
direction.map turns 1 into BUY and -1 into SELL; any other value would map
to NaN, hence the Option result type. -/
def supertrend (high low close : List ℚ) (p : ℕ) (mult : ℚ) : List (Option String) :=
  let atrv := atr high low close p
  let hl2 := List.zipWith (fun a b => (a + b) / 2) high low
  let ub := List.zipWith (fun m (a : Option ℚ) => a.map fun x => m + mult * x) hl2 atrv
  let lb := List.zipWith (fun m (a : Option ℚ) => a.map fun x => m - mult * x) hl2 atrv
  let fu := finalUpper ub close
  let fl := finalLower lb close
  (stDirList fu fl close).map fun d =>
    if d = 1 then some "BUY" else if d = -1 then some "SELL" else none

/-- Sign series of np.where(close > close.shift(1), 1, np.where(close <
close.shift(1), -1, 0)); comparisons with the NaN at position 0 are false. -/
def obvSign (c : List ℚ) : List ℚ :=
  (List.range c.length).map fun i =>
    if i = 0 then 0
    else if c.getD (i - 1) 0 < c.getD i 0 then 1
    else if c.getD i 0 < c.getD (i - 1) 0 then -1
    else 0

/-- Cumulative sum: position i holds the sum of the first i+1 entries. -/
def cumsum (l : List ℚ) : List ℚ :=
  (List.range l.length).map fun i => (l.take (i + 1)).sum

/-- On-Balance Volume (def obv in indicators.py). -/
def obv (close volume : List ℚ) : List ℚ :=
  cumsum (List.zipWith (· * ·) volume (obvSign close))

/-- Crossing classification at position j, from the sign of DMA50 - DMA200 at
j-1 and at j; a NaN in either difference makes both conditions false. -/
def crossAt (c : List ℚ) (j : ℕ) : Option String :=
  let pd :=
    match smaAt c 50 (j - 1), smaAt c 200 (j - 1) with
    | some a, some b => some (a - b)
    | _, _ => none
  let cd :=
    match smaAt c 50 j, smaAt c 200 j with
    | some a, some b => some (a - b)
    | _, _ => none
  if geOB 0 pd && ltOB 0 cd then some "GOLDEN"
  else if leOB 0 pd && gtOB 0 cd then some "DEATH"
  else none

/-- Golden/death cross detector (def golden_death_cross in indicators.py):
bail out when either DMA is NaN at the last position, then scan the last
min(lookback, n-1) positions chronologically and return the first crossing. -/
def golden_death_cross (c : List ℚ) (lookback : ℕ) : Option String :=
  match smaAt c 50 (c.length - 1), smaAt c 200 (c.length - 1) with
  | some _, some _ =>
    let recent := min lookback (c.length - 1)
    (((List.range recent).map fun k => c.length - recent + k).findSome? (crossAt c))
  | _, _ => none

/-! ### Generic list lemmas -/

theorem mem_zipWith_ex {α β γ : Type} {f : α → β → γ} :
    ∀ {as : List α} {bs : List β} {z : γ}, z ∈ List.zipWith f as bs →
      ∃ a b, a ∈ as ∧ b ∈ bs ∧ z = f a b := by
  intro as
  induction as with
  | nil => intro bs z h; simp [List.zipWith] at h
  | cons a as ih =>
    intro bs z h
    cases bs with
    | nil => simp [List.zipWith] at h
    | cons b bs =>
      simp only [List.zipWith, List.mem_cons] at h
      rcases h with h | h
      · exact ⟨a, b, List.mem_cons_self a as, List.mem_cons_self b bs, h⟩
      · obtain ⟨a1, b1, ha, hb, hz⟩ := ih h
        exact ⟨a1, b1, List.mem_cons_of_mem _ ha, List.mem_cons_of_mem _ hb, hz⟩

/-! ### RSI facts (claim C4) -/

theorem mem_maskFrom {p : ℕ} {x : ℚ} :
    ∀ {i : ℕ} {l : List ℚ}, some x ∈ maskFrom p i l → x ∈ l := by
  intro i l
  induction l generalizing i with
  | nil => intro h; simp [maskFrom] at h
  | cons y ys ih =>
    intro h
    simp only [maskFrom, List.mem_cons] at h
    rcases h with h | h
    · by_cases hc : p ≤ i + 1
      · simp [hc] at h; simp [h]
      · simp [hc] at h
    · exact List.mem_cons_of_mem _ (ih h)

theorem ewmFrom_nonneg {α y : ℚ} (hα0 : 0 ≤ α) (hα1 : α ≤ 1) :
    ∀ {l : List ℚ}, 0 ≤ y → (∀ x ∈ l, 0 ≤ x) → ∀ z ∈ ewmFrom α y l, 0 ≤ z := by
  intro l
  induction l generalizing y with
  | nil => intro _ _ z hz; simp [ewmFrom] at hz
  | cons x xs ih =>
    intro hy hl z hz
    have hx : 0 ≤ x := hl x (List.mem_cons_self x xs)
    have hy' : 0 ≤ (1 - α) * y + α * x :=
      add_nonneg (mul_nonneg (by linarith) hy) (mul_nonneg hα0 hx)
    simp only [ewmFrom, List.mem_cons] at hz
    rcases hz with hz | hz
    · exact hz ▸ hy'
    · exact ih hy' (fun a ha => hl a (List.mem_cons_of_mem _ ha)) z hz

theorem ewmRec_nonneg {α : ℚ} (hα0 : 0 ≤ α) (hα1 : α ≤ 1) {l : List ℚ}
    (hl : ∀ x ∈ l, 0 ≤ x) : ∀ z ∈ ewmRec α l, 0 ≤ z := by
  cases l with
  | nil => intro z hz; simp [ewmRec] at hz
  | cons x xs =>
    intro z hz
    have hx : 0 ≤ x := hl x (List.mem_cons_self x xs)
    simp only [ewmRec, List.mem_cons] at hz
    rcases hz with hz | hz
    · exact hz ▸ hx
    · exact ewmFrom_nonneg hα0 hα1 hx
        (fun a ha => hl a (List.mem_cons_of_mem _ ha)) z hz

theorem gainsGo_nonneg {prev : ℚ} {l : List ℚ} :
    ∀ x ∈ gains.gainsGo prev l, 0 ≤ x := by
  induction l generalizing prev with
  | nil => intro x hx; simp [gains.gainsGo] at hx
  | cons y ys ih =>
    intro x hx
    simp only [gains.gainsGo, List.mem_cons] at hx
    rcases hx with hx | hx
    · subst hx; split <;> [linarith; rfl]
    · exact ih x hx

theorem gains_nonneg {c : List ℚ} : ∀ x ∈ gains c, 0 ≤ x := by
  cases c with
  | nil => intro x hx; simp [gains] at hx
  | cons c0 cs =>
    intro x hx
    simp only [gains, List.mem_cons] at hx
    rcases hx with hx | hx
    · simp [hx]
    · exact gainsGo_nonneg x hx

theorem lossesGo_nonneg {prev : ℚ} {l : List ℚ} :
    ∀ x ∈ losses.lossesGo prev l, 0 ≤ x := by
  induction l generalizing prev with
  | nil => intro x hx; simp [losses.lossesGo] at hx
  | cons y ys ih =>
    intro x hx
    simp only [losses.lossesGo, List.mem_cons] at hx
    rcases hx with hx | hx
    · subst hx; split <;> [linarith; rfl]
    · exact ih x hx

theorem losses_nonneg {c : List ℚ} : ∀ x ∈ losses c, 0 ≤ x := by
  cases c with
  | nil => intro x hx; simp [losses] at hx
  | cons c0 cs =>
    intro x hx
    simp only [losses, List.mem_cons] at hx
    rcases hx with hx | hx
    · simp [hx]
    · exact lossesGo_nonneg x hx

theorem wilderAvg_nonneg {p : ℕ} {l : List ℚ} (hl : ∀ x ∈ l, 0 ≤ x) :
    ∀ o ∈ wilderAvg p l, ∀ v : ℚ, o = some v → 0 ≤ v := by
  intro o ho v hv
  subst hv
  have h1 : v ∈ ewmRec (1 / (p : ℚ)) l := mem_maskFrom ho
  have hα0 : (0 : ℚ) ≤ 1 / (p : ℚ) := by positivity
  have hα1 : (1 : ℚ) / (p : ℚ) ≤ 1 := by
    rcases Nat.eq_zero_or_pos p with hp | hp
    · simp [hp]
    · rw [div_le_one (by exact_mod_cast hp)]
      exact_mod_cast hp
  exact ewmRec_nonneg hα0 hα1 hl v h1

theorem rsiVal_bounds {g l : ℚ} (hg : 0 ≤ g) (hl : 0 < l) :
    0 ≤ 100 - 100 / (1 + g / l) ∧ 100 - 100 / (1 + g / l) ≤ 100 := by
  have hrs : 0 ≤ g / l := div_nonneg hg hl.le
  have h1 : (1 : ℚ) ≤ 1 + g / l := by linarith
  have hle : 100 / (1 + g / l) ≤ 100 := div_le_self (by norm_num) h1
  have hge : 0 ≤ 100 / (1 + g / l) := div_nonneg (by norm_num) (by linarith)
  constructor <;> linarith

theorem maskFrom_length (p : ℕ) : ∀ (i : ℕ) (l : List ℚ), (maskFrom p i l).length = l.length := by
  intro i l
  induction l generalizing i with
  | nil => rfl
  | cons x xs ih => simp [maskFrom, ih]

theorem ewmFrom_length (α y : ℚ) : ∀ l : List ℚ, (ewmFrom α y l).length = l.length := by
  intro l
  induction l generalizing y with
  | nil => rfl
  | cons x xs ih => simp [ewmFrom, ih]

theorem ewmRec_length (α : ℚ) (l : List ℚ) : (ewmRec α l).length = l.length := by
  cases l with
  | nil => rfl
  | cons x xs => simp [ewmRec, ewmFrom_length]

theorem wilderAvg_length (p : ℕ) (l : List ℚ) : (wilderAvg p l).length = l.length := by
  simp [wilderAvg, maskFrom_length, ewmRec_length]

theorem gainsGo_length (prev : ℚ) : ∀ l : List ℚ, (gains.gainsGo prev l).length = l.length := by
  intro l
  induction l generalizing prev with
  | nil => rfl
  | cons x xs ih => simp [gains.gainsGo, ih]

theorem gains_length (c : List ℚ) : (gains c).length = c.length := by
  cases c with
  | nil => rfl
  | cons c0 cs => simp [gains, gainsGo_length]

theorem lossesGo_length (prev : ℚ) : ∀ l : List ℚ, (losses.lossesGo prev l).length = l.length := by
  intro l
  induction l generalizing prev with
  | nil => rfl
  | cons x xs ih => simp [losses.lossesGo, ih]

theorem losses_length (c : List ℚ) : (losses c).length = c.length := by
  cases c with
  | nil => rfl
  | cons c0 cs => simp [losses, lossesGo_length]

/-- C4: whenever the RSI value at a position is defined it lies in [0, 100];
and when the Wilder-smoothed average loss at a position is zero, RSI at that
position is undefined rather than forced to 100. -/
theorem rsi_bounded_and_zero_loss_undefined (c : List ℚ) (p : ℕ) :
    (∀ o ∈ rsi c p, ∀ v : ℚ, o = some v → 0 ≤ v ∧ v ≤ 100) ∧
    (∀ i : ℕ, (wilderAvg p (losses c)).getD i none = some 0 →
      (rsi c p).getD i none = none) := by
  constructor
  · intro o ho v hv
    obtain ⟨g, l, hg, hl, hz⟩ := mem_zipWith_ex ho
    subst hz
    rcases g with _ | gv <;> rcases l with _ | lv <;>
      simp only [rsiCombine] at hv
    · exact absurd hv (by simp)
    · exact absurd hv (by simp)
    · exact absurd hv (by simp)
    · by_cases h0 : lv = 0
      · rw [if_pos h0] at hv; exact absurd hv (by simp)
      · rw [if_neg h0] at hv
        have hvv : 100 - 100 / (1 + gv / lv) = v := by
          exact Option.some_injective ℚ hv
        have hg0 : 0 ≤ gv := wilderAvg_nonneg gains_nonneg _ hg gv rfl
        have hl0 : 0 ≤ lv := wilderAvg_nonneg losses_nonneg _ hl lv rfl
        have hb := rsiVal_bounds hg0 (lt_of_le_of_ne hl0 (Ne.symm h0))
        exact hvv ▸ hb
  · intro i hi
    simp only [List.getD_eq_getElem?_getD] at hi ⊢
    have hloss : (wilderAvg p (losses c))[i]? = some (some 0) := by
      cases h : (wilderAvg p (losses c))[i]? with
      | none => rw [h] at hi; simp at hi
      | some o =>
        rw [h] at hi
        simp only [Option.getD_some] at hi
        rw [hi]
    have hilen : i < (wilderAvg p (losses c)).length := by
      have := List.getElem?_eq_some_iff.mp hloss
      exact this.1
    have hglen : i < (wilderAvg p (gains c)).length := by
      rw [wilderAvg_length, gains_length]
      rw [wilderAvg_length, losses_length] at hilen
      exact hilen
    obtain ⟨og, hog⟩ : ∃ og, (wilderAvg p (gains c))[i]? = some og := by
      exact ⟨_, List.getElem?_eq_getElem hglen⟩
    rw [rsi, List.getElem?_zipWith, hog, hloss]
    rcases og with _ | gv <;> simp [rsiCombine]

set_option maxRecDepth 4000 in
/-- Witness for C4 at a concrete oscillating series. -/
theorem rsi_bounded_witness : (0 : ℚ) ≤ 300 / 7 ∧ (300 / 7 : ℚ) ≤ 100 :=
  (rsi_bounded_and_zero_loss_undefined [1, 2, 3, 2, 1, 2, 3] 2).1
    (some (300 / 7)) (by decide) (300 / 7) rfl

/-! ### OBV facts (claim C7) -/

/-- Sign function as the spec states it, with sign(0) = 0. -/
def qsign (x : ℚ) : ℚ := if 0 < x then 1 else if x < 0 then -1 else 0

theorem getD_map_range {α : Type} (f : ℕ → α) {n i : ℕ} (d : α) (h : i < n) :
    ((List.range n).map f).getD i d = f i := by
  rw [List.getD_eq_getElem?_getD, List.getElem?_map, List.getElem?_range h]
  rfl

theorem mem_map_range {α : Type} {f : ℕ → α} {z : α} {n : ℕ}
    (h : z ∈ (List.range n).map f) : ∃ i, i < n ∧ z = f i := by
  obtain ⟨i, hi, hz⟩ := List.mem_map.mp h
  exact ⟨i, List.mem_range.mp hi, hz.symm⟩

theorem cumsum_getD (l : List ℚ) {i : ℕ} (h : i < l.length) :
    (cumsum l).getD i 0 = (l.take (i + 1)).sum := by
  rw [cumsum, getD_map_range _ _ h]

theorem obvSign_length (c : List ℚ) : (obvSign c).length = c.length := by
  simp [obvSign]

theorem zipWith_getD_mul (v s : List ℚ) {i : ℕ} (hv : i < v.length) (hs : i < s.length) :
    (List.zipWith (· * ·) v s).getD i 0 = v.getD i 0 * s.getD i 0 := by
  simp only [List.getD_eq_getElem?_getD, List.getElem?_zipWith,
    List.getElem?_eq_getElem hv, List.getElem?_eq_getElem hs]
  rfl

/-- C7: OBV is the cumulative sum obv[i] = obv[i-1] + volume[i]·sign(close[i]-
close[i-1]) with sign(0) = 0; it is exactly zero at position 0, and for an
all-flat close series it is exactly zero at every position. -/
theorem obv_cumulative_spec (c v : List ℚ) (hlen : v.length = c.length) :
    (0 < c.length → (obv c v).getD 0 0 = 0) ∧
    (∀ i : ℕ, 1 ≤ i → i < c.length →
      (obv c v).getD i 0 =
        (obv c v).getD (i - 1) 0 + v.getD i 0 * qsign (c.getD i 0 - c.getD (i - 1) 0)) ∧
    ((∀ x ∈ c, ∀ y ∈ c, x = y) → ∀ z ∈ obv c v, z = 0) := by
  have hplen : (List.zipWith (· * ·) v (obvSign c)).length = c.length := by
    rw [List.length_zipWith, obvSign_length, hlen, min_self]
  refine ⟨?_, ?_, ?_⟩
  · intro h0
    rw [obv, cumsum_getD _ (by rw [hplen]; exact h0)]
    rw [List.take_succ]
    simp only [List.take_zero, List.nil_append, List.sum_nil]
    have hz : (List.zipWith (· * ·) v (obvSign c))[0]? =
        some ((List.zipWith (· * ·) v (obvSign c)).getD 0 0) := by
      rw [List.getD_eq_getElem?_getD, List.getElem?_eq_getElem (by rw [hplen]; exact h0)]
      rfl
    rw [hz]
    simp only [Option.toList_some, List.sum_cons, List.sum_nil, add_zero]
    rw [zipWith_getD_mul _ _ (by rw [hlen]; exact h0) (by rw [obvSign_length]; exact h0)]
    have hs0 : (obvSign c).getD 0 0 = 0 := by
      rw [obvSign, getD_map_range _ _ h0]; simp
    rw [hs0, mul_zero]
  · intro i h1 hi
    have hprod : i < (List.zipWith (· * ·) v (obvSign c)).length := by rw [hplen]; exact hi
    rw [obv, cumsum_getD _ hprod, cumsum_getD _ (by rw [hplen]; omega)]
    have hstep : i - 1 + 1 = i := by omega
    rw [hstep, List.take_succ, List.sum_append,
      List.getElem?_eq_getElem hprod]
    simp only [Option.toList_some, List.sum_cons, List.sum_nil, add_zero]
    have hgetd : (List.zipWith (· * ·) v (obvSign c))[i] =
        (List.zipWith (· * ·) v (obvSign c)).getD i 0 := by
      rw [List.getD_eq_getElem?_getD, List.getElem?_eq_getElem hprod]; rfl
    rw [hgetd, zipWith_getD_mul _ _ (by omega) (by rw [obvSign_length]; exact hi)]
    have hsign : (obvSign c).getD i 0 = qsign (c.getD i 0 - c.getD (i - 1) 0) := by
      rw [obvSign, getD_map_range _ _ hi]
      have hne : ¬ i = 0 := by omega
      rw [if_neg hne, qsign]
      rcases lt_trichotomy (c.getD (i - 1) 0) (c.getD i 0) with hlt | heq | hgt
      · rw [if_pos hlt, if_pos (by linarith)]
      · rw [heq]; simp
      · rw [if_neg (by linarith), if_pos hgt, if_neg (by linarith), if_pos (by linarith)]
    rw [hsign]
  · intro hflat z hz
    have hsign0 : ∀ s ∈ obvSign c, s = 0 := by
      intro s hs
      obtain ⟨i, hi, hsi⟩ := mem_map_range hs
      subst hsi
      by_cases h0 : i = 0
      · simp [h0]
      · rw [if_neg h0]
        have hmem1 : c.getD (i - 1) 0 ∈ c := by
          rw [List.getD_eq_getElem?_getD, List.getElem?_eq_getElem (by omega)]
          exact List.getElem_mem _
        have hmem2 : c.getD i 0 ∈ c := by
          rw [List.getD_eq_getElem?_getD, List.getElem?_eq_getElem hi]
          exact List.getElem_mem _
        have heq := hflat _ hmem1 _ hmem2
        rw [heq]
        simp
    have hprod0 : ∀ x ∈ List.zipWith (· * ·) v (obvSign c), x = 0 := by
      intro x hx
      obtain ⟨a, b, _, hb, hab⟩ := mem_zipWith_ex hx
      rw [hab, hsign0 b hb, mul_zero]
    obtain ⟨i, hi, hzi⟩ := mem_map_range hz
    subst hzi
    exact List.sum_eq_zero fun x hx => hprod0 x (List.mem_of_mem_take hx)

/-- Witness for C7: the OBV recurrence evaluated at a concrete series. -/
theorem obv_cumulative_witness :
    (obv [1, 2] [5, 7]).getD 1 0 =
      (obv [1, 2] [5, 7]).getD 0 0 +
        ([5, 7] : List ℚ).getD 1 0 *
          qsign (([1, 2] : List ℚ).getD 1 0 - ([1, 2] : List ℚ).getD 0 0) :=
  (obv_cumulative_spec [1, 2] [5, 7] rfl).2.1 1 (by decide) (by decide)

/-! ### Supertrend facts (claim C1) -/

theorem stStep_pm (fu fl : List (Option ℚ)) (c : List ℚ) (i : ℕ) (stPrev : Option ℚ) :
    (stStep fu fl c i stPrev).1 = 1 ∨ (stStep fu fl c i stPrev).1 = -1 := by
  rw [stStep]
  split
  · split
    · right; rfl
    · left; rfl
  · split
    · left; rfl
    · right; rfl

theorem stDirGo_pm (fu fl : List (Option ℚ)) (c : List ℚ) :
    ∀ (fuel i : ℕ) (stPrev : Option ℚ), ∀ d ∈ stDirGo fu fl c i fuel stPrev,
      d = 1 ∨ d = -1 := by
  intro fuel
  induction fuel with
  | zero => intro i stPrev d hd; simp [stDirGo] at hd
  | succ n ih =>
    intro i stPrev d hd
    simp only [stDirGo, List.mem_cons] at hd
    rcases hd with hd | hd
    · exact hd ▸ stStep_pm fu fl c i stPrev
    · exact ih (i + 1) _ d hd

theorem stDirGo_length (fu fl : List (Option ℚ)) (c : List ℚ) :
    ∀ (fuel i : ℕ) (stPrev : Option ℚ), (stDirGo fu fl c i fuel stPrev).length = fuel := by
  intro fuel
  induction fuel with
  | zero => intro i stPrev; rfl
  | succ n ih => intro i stPrev; simp [stDirGo, ih]

theorem stDirList_length (fu fl : List (Option ℚ)) (c : List ℚ) :
    (stDirList fu fl c).length = c.length := by
  cases c with
  | nil => rfl
  | cons x xs => simp [stDirList, stDirGo_length]

/-- C1 (amended): supertrend yields exactly one value per trading-day
position, and every position holds a defined value in the set containing BUY
and SELL — including the positions before ATR has enough history, which the
claim said should be undefined. -/
theorem supertrend_one_value_buy_sell (high low c : List ℚ) (p : ℕ) (m : ℚ) :
    (supertrend high low c p m).length = c.length ∧
    ∀ o ∈ supertrend high low c p m, o = some "BUY" ∨ o = some "SELL" := by
  constructor
  · rw [supertrend]
    simp only [List.length_map]
    exact stDirList_length _ _ _
  · intro o ho
    rw [supertrend] at ho
    simp only [List.mem_map] at ho
    obtain ⟨d, hd, ho⟩ := ho
    have hpm : d = 1 ∨ d = -1 := by
      rcases hc : c with _ | ⟨x, xs⟩
      · rw [hc] at hd; simp [stDirList] at hd
      · rw [hc] at hd
        simp only [stDirList, List.mem_cons] at hd
        rcases hd with hd | hd
        · left; exact hd
        · exact stDirGo_pm _ _ _ _ _ _ d hd
    rcases hpm with h1 | h1 <;> subst h1 <;> rw [← ho]
    · left; rfl
    · right; simp

/-- Witness for the amended C1 theorem at a concrete series. -/
theorem supertrend_buy_sell_witness :
    (some "BUY" : Option String) = some "BUY" ∨ (some "BUY" : Option String) = some "SELL" :=
  (supertrend_one_value_buy_sell [10, 11, 12] [8, 9, 10] [9, 10, 11] 10 3).2
    (some "BUY") (by decide)

set_option maxRecDepth 2000 in
/-- C1 counterexample: on a 3-bar OHLC series with ATR period 10 the ATR is
NaN at every position (no seed yet), but supertrend still reports a defined
value at every position — BUY on day 0, SELL afterwards — contradicting the
claim that the value is undefined before enough history exists to seed ATR. -/
theorem supertrend_defined_before_atr_seeded :
    supertrend [10, 11, 12] [8, 9, 10] [9, 10, 11] 10 3 =
      [some "BUY", some "SELL", some "SELL"] ∧
    atr [10, 11, 12] [8, 9, 10] [9, 10, 11] 10 = [none, none, none] := by
  constructor <;> decide

/-! ### Golden/death cross facts (claim C3) -/

theorem findSome?_map_range_first {α : Type} (f : ℕ → Option α) :
    ∀ (j m s : ℕ), j < m → (∀ k, k < j → f (s + k) = none) → (f (s + j)).isSome →
      (((List.range m).map fun k => s + k).findSome? f) = f (s + j) := by
  intro j
  induction j with
  | zero =>
    intro m s hm _ hsome
    rcases m with _ | m'
    · omega
    · rw [List.range_succ_eq_map, List.map_cons, List.map_map]
      rw [List.findSome?_cons_of_isSome _ (by simpa using hsome)]
  | succ j' ih =>
    intro m s hm hnone hsome
    rcases m with _ | m'
    · omega
    · rw [List.range_succ_eq_map, List.map_cons, List.map_map]
      have h0 : f (s + 0) = none := hnone 0 (by omega)
      rw [List.findSome?_cons_of_isNone _ (by simp only [Nat.add_zero] at h0; simp [h0])]
      have hmap : (List.range m').map ((fun k => s + k) ∘ Nat.succ) =
          (List.range m').map fun k => (s + 1) + k := by
        apply List.map_congr_left
        intro a _
        simp [Function.comp]
        omega
      rw [hmap]
      have hshift : ∀ k, k < j' → f (s + 1 + k) = none := by
        intro k hk
        have := hnone (k + 1) (by omega)
        have harith : s + (k + 1) = s + 1 + k := by omega
        rw [harith] at this
        exact this
      have harith2 : s + 1 + j' = s + (j' + 1) := by omega
      rw [ih m' (s + 1) (by omega) hshift (by rw [harith2]; exact hsome), harith2]

/-- C3: with both DMAs defined at the last position, golden_death_cross scans
the last min(lookback, n-1) positions — i.e. from position max(n-lookback, 1)
— in chronological order and returns the classification of the first crossing
it finds (GOLDEN for a ≤0 to >0 move of DMA50-DMA200, DEATH for ≥0 to <0,
as crossAt states); it returns none exactly when no crossing classification
fires anywhere in the window. -/
theorem golden_death_cross_first_crossing (c : List ℚ) (lookback : ℕ)
    (h50 : (smaAt c 50 (c.length - 1)).isSome)
    (h200 : (smaAt c 200 (c.length - 1)).isSome) :
    (c.length - min lookback (c.length - 1) = max (c.length - lookback) 1) ∧
    (golden_death_cross c lookback = none ↔
      ∀ k, k < min lookback (c.length - 1) →
        crossAt c (c.length - min lookback (c.length - 1) + k) = none) ∧
    (∀ j, j < min lookback (c.length - 1) →
      (∀ k, k < j → crossAt c (c.length - min lookback (c.length - 1) + k) = none) →
      (crossAt c (c.length - min lookback (c.length - 1) + j)).isSome →
      golden_death_cross c lookback =
        crossAt c (c.length - min lookback (c.length - 1) + j)) := by
  obtain ⟨a, ha⟩ := Option.isSome_iff_exists.mp h50
  obtain ⟨b, hb⟩ := Option.isSome_iff_exists.mp h200
  have hn : 50 ≤ c.length := by
    rw [smaAt] at ha
    by_cases hcond : 0 < 50 ∧ 50 ≤ c.length - 1 + 1 ∧ c.length - 1 < c.length
    · omega
    · rw [if_neg hcond] at ha; exact absurd ha (by simp)
  have hunfold : golden_death_cross c lookback =
      (((List.range (min lookback (c.length - 1))).map
        fun k => c.length - min lookback (c.length - 1) + k).findSome? (crossAt c)) := by
    rw [golden_death_cross, ha, hb]
  refine ⟨by omega, ?_, ?_⟩
  · rw [hunfold, List.findSome?_eq_none_iff]
    constructor
    · intro hall k hk
      exact hall _ (List.mem_map.mpr ⟨k, List.mem_range.mpr hk, rfl⟩)
    · intro hptw x hx
      obtain ⟨k, hk, hxe⟩ := mem_map_range hx
      rw [hxe]
      exact hptw k hk
  · intro j hj hnone hsome
    rw [hunfold]
    exact findSome?_map_range_first (crossAt c) j _ _ hj hnone hsome

set_option maxRecDepth 40000 in
/-- Witness for C3: on a flat 201-bar series both DMAs are defined at the
last bar, no crossing exists in the scanned window, and the detector
returns none. -/
theorem golden_death_cross_witness :
    golden_death_cross (List.replicate 201 100) 5 = none :=
  ((golden_death_cross_first_crossing (List.replicate 201 100) 5
      (by decide) (by decide)).2.1).mpr (by decide)

/-! ### Screening data model

The input of every screen is the full multi-symbol OHLCV table; the screens
iterate `ohlcv.groupby("symbol")` and date-sort each group.  A raw row keeps
one bar; price columns are complete, volume and delivery_pct may be missing
(the screens fillna them).  Dates are abstracted to naturals preserving
order. -/

structure RawRow where
  symbol : String
  date : ℕ
  openPrice : ℚ
  high : ℚ
  low : ℚ
  close : ℚ
  volume : Option ℚ
  deliveryPct : Option ℚ
deriving DecidableEq

/-- Keep the first occurrence of every key not yet seen (pandas groupby keys
and drop_duplicates keep="first" both reduce to this shape). -/
def dedupeByKeys {α β : Type} [DecidableEq β] (key : α → β) : List β → List α → List α
  | _, [] => []
  | seen, x :: xs =>
    if key x ∈ seen then dedupeByKeys key seen xs
    else x :: dedupeByKeys key (key x :: seen) xs

/-- ohlcv.groupby("symbol"): one group per distinct symbol, each group holding
that symbol's rows in their original order. -/
def groupBySymbol (ds : List RawRow) : List (String × List RawRow) :=
  (dedupeByKeys id [] (ds.map fun r => r.symbol)).map fun s =>
    (s, ds.filter fun r => r.symbol = s)

/-- Date order used by group.sort_values("trade_date"). -/
def dateLe (a b : RawRow) : Prop := a.date ≤ b.date

instance : DecidableRel dateLe := fun a b => inferInstanceAs (Decidable (a.date ≤ b.date))

/-- Column view of one symbol's date-sorted group. -/
structure Bars where
  high : List ℚ
  low : List ℚ
  close : List ℚ
  volume : List (Option ℚ)
  deliveryPct : List (Option ℚ)

/-- Extract the columns of a group (all columns share the group's row count). -/
def toBars (rows : List RawRow) : Bars :=
  { high := rows.map fun r => r.high
    low := rows.map fun r => r.low
    close := rows.map fun r => r.close
    volume := rows.map fun r => r.volume
    deliveryPct := rows.map fun r => r.deliveryPct }

/-- Date-sorted series of one symbol of the dataset, as every screen builds it. -/
def groupSeries (ds : List RawRow) (sym : String) : Bars :=
  toBars (List.insertionSort dateLe (ds.filter fun r => r.symbol = sym))

/-! ### Tab 1: Big Drops (screener_price.screen_big_drops) -/

structure BigDropRow where
  symbol : String
  price : ℚ
  high6m : ℚ
  drop : ℚ
  rsiv : Option ℚ
deriving DecidableEq

/-- drop_pct = ((high_6m - current_price) / high_6m) * 100. -/
def dropPctOf (high6m price : ℚ) : ℚ := (high6m - price) / high6m * 100

/-- Per-symbol body of screen_big_drops: skip short histories, skip
non-positive 6M highs, emit a row when the drop from the 6-month high
reaches the threshold. -/
def bigDropRow (sym : String) (thr : ℚ) (b : Bars) : Option BigDropRow :=
  if b.close.length < 20 then none
  else
    match b.high.max?, b.close.getLast? with
    | some high6m, some price =>
      if high6m ≤ 0 then none
      else
        if thr ≤ dropPctOf high6m price then
          some { symbol := sym
                 price := roundTo 2 price
                 high6m := roundTo 2 high6m
                 drop := roundTo 1 (dropPctOf high6m price)
                 rsiv := (olast (rsi b.close 14)).map (roundTo 1) }
        else none
    | _, _ => none

/-- Sort key of screen_big_drops: Drop % descending. -/
def dropGe (a b : BigDropRow) : Prop := b.drop ≤ a.drop

instance : DecidableRel dropGe := fun a b => inferInstanceAs (Decidable (b.drop ≤ a.drop))

/-- Tab 1 screen over grouped data. -/
def screen_big_drops_groups (thr : ℚ) (groups : List (String × List RawRow)) :
    List BigDropRow :=
  List.insertionSort dropGe
    (groups.filterMap fun g => bigDropRow g.1 thr (toBars (List.insertionSort dateLe g.2)))

/-- def screen_big_drops in screener_price.py. -/
def screen_big_drops (thr : ℚ) (ds : List RawRow) : List BigDropRow :=
  screen_big_drops_groups thr (groupBySymbol ds)

/-! ### Generic facts about groupBySymbol -/

theorem find?_eq_self {α : Type} [DecidableEq α] {s : α} :
    ∀ {l : List α}, s ∈ l → l.find? (fun x => decide (x = s)) = some s := by
  intro l
  induction l with
  | nil => intro h; simp at h
  | cons x xs ih =>
    intro h
    by_cases hx : x = s
    · subst hx; simp [List.find?]
    · rw [List.find?]
      simp only [decide_eq_true_eq, hx, decide_False]
      rcases List.mem_cons.mp h with he | hm
      · exact absurd he.symm hx
      · exact ih hm

theorem mem_dedupeByKeys {α β : Type} [DecidableEq β] (key : α → β) :
    ∀ (seen : List β) (l : List α) (a : α), a ∈ dedupeByKeys key seen l ↔
      key a ∉ seen ∧ l.find? (fun x => decide (key x = key a)) = some a := by
  intro seen l
  induction l generalizing seen with
  | nil => intro a; simp [dedupeByKeys]
  | cons x xs ih =>
    intro a
    rw [dedupeByKeys]
    by_cases hseen : key x ∈ seen
    · rw [if_pos hseen, ih]
      constructor
      · rintro ⟨hns, hfind⟩
        refine ⟨hns, ?_⟩
        rw [List.find?]
        have hne : ¬ key x = key a := fun he => hns (he ▸ hseen)
        simp only [hne, decide_False]
        exact hfind
      · rintro ⟨hns, hfind⟩
        refine ⟨hns, ?_⟩
        rw [List.find?] at hfind
        have hne : ¬ key x = key a := fun he => hns (he ▸ hseen)
        simp only [hne, decide_False] at hfind
        exact hfind
    · rw [if_neg hseen]
      constructor
      · intro hmem
        rcases List.mem_cons.mp hmem with he | hm
        · subst he
          refine ⟨hseen, ?_⟩
          simp [List.find?]
        · rw [ih] at hm
          obtain ⟨hns, hfind⟩ := hm
          have hnsx : key a ∉ seen := fun hc => hns (List.mem_cons_of_mem _ hc)
          have hne : ¬ key x = key a := by
            intro he
            exact hns (he ▸ List.mem_cons_self _ _)
          refine ⟨hnsx, ?_⟩
          rw [List.find?]
          simp only [hne, decide_False]
          exact hfind
      · rintro ⟨hns, hfind⟩
        rw [List.find?] at hfind
        by_cases hkey : key x = key a
        · simp only [hkey, decide_True] at hfind
          have hxa : x = a := by
            injection hfind
          exact hxa ▸ List.mem_cons_self _ _
        · simp only [hkey, decide_False] at hfind
          apply List.mem_cons_of_mem
          rw [ih]
          refine ⟨?_, hfind⟩
          intro hc
          rcases List.mem_cons.mp hc with he | hm
          · exact hkey he.symm
          · exact hns hm

theorem dedupeByKeys_nodup_aux {α β : Type} [DecidableEq β] (key : α → β) :
    ∀ (l : List α) (seen : List β),
      ((dedupeByKeys key seen l).map key).Nodup ∧
      ∀ b ∈ (dedupeByKeys key seen l).map key, b ∉ seen := by
  intro l
  induction l with
  | nil => intro seen; simp [dedupeByKeys]
  | cons x xs ih =>
    intro seen
    rw [dedupeByKeys]
    by_cases hseen : key x ∈ seen
    · rw [if_pos hseen]; exact ih seen
    · rw [if_neg hseen]
      obtain ⟨hnd, hout⟩ := ih (key x :: seen)
      simp only [List.map_cons, List.nodup_cons]
      refine ⟨⟨?_, hnd⟩, ?_⟩
      · intro hc
        exact hout _ hc (List.mem_cons_self _ _)
      · intro b hb
        rcases List.mem_cons.mp hb with he | hm
        · exact he ▸ hseen
        · intro hc
          exact hout b hm (List.mem_cons_of_mem _ hc)

theorem groupBySymbol_keys_nodup (ds : List RawRow) :
    ((groupBySymbol ds).map fun g => g.1).Nodup := by
  rw [groupBySymbol, List.map_map]
  have : ((fun g => g.1) ∘ fun s => (s, ds.filter fun r => r.symbol = s)) = id := rfl
  rw [this, List.map_id]
  have h := (dedupeByKeys_nodup_aux (id : String → String)
    (ds.map fun r => r.symbol) []).1
  simpa using h

theorem mem_groupBySymbol {ds : List RawRow} {g : String × List RawRow}
    (h : g ∈ groupBySymbol ds) : g.2 = ds.filter fun r => r.symbol = g.1 := by
  rw [groupBySymbol] at h
  obtain ⟨s, _, hg⟩ := List.mem_map.mp h
  rw [← hg]

theorem groupBySymbol_mem_keys {ds : List RawRow} {sym : String}
    (h : ∃ r ∈ ds, r.symbol = sym) :
    (sym, ds.filter fun r => r.symbol = sym) ∈ groupBySymbol ds := by
  rw [groupBySymbol]
  apply List.mem_map.mpr
  refine ⟨sym, ?_, rfl⟩
  rw [mem_dedupeByKeys]
  obtain ⟨r, hr, hsym⟩ := h
  refine ⟨by simp, ?_⟩
  have : sym ∈ ds.map fun r => r.symbol :=
    List.mem_map.mpr ⟨r, hr, hsym⟩
  exact find?_eq_self this

/-! ### Big-drop facts (claims C5, C6, C8) -/

theorem bigDropRow_symbol {s : String} {thr : ℚ} {b : Bars} {r : BigDropRow}
    (h : bigDropRow s thr b = some r) : r.symbol = s := by
  rw [bigDropRow] at h
  split at h
  · exact absurd h (by simp)
  · split at h
    · split at h
      · exact absurd h (by simp)
      · split at h
        · have := Option.some.inj h
          rw [← this]
        · exact absurd h (by simp)
    · exact absurd h (by simp)

theorem bigDropRow_hundred_seventy {b : Bars} (sym : String)
    (h20 : 20 ≤ b.close.length) (hmax : b.high.max? = some 100)
    (hlast : b.close.getLast? = some 70) :
    (∃ row, bigDropRow sym 20 b = some row ∧ row.symbol = sym ∧ row.drop = 30) ∧
    bigDropRow sym 35 b = none := by
  have hlen : ¬ b.close.length < 20 := by omega
  have hdrop : dropPctOf 100 70 = 30 := by norm_num [dropPctOf]
  constructor
  · refine ⟨{ symbol := sym, price := roundTo 2 70, high6m := roundTo 2 100,
              drop := roundTo 1 (dropPctOf 100 70),
              rsiv := (olast (rsi b.close 14)).map (roundTo 1) }, ?_, rfl, ?_⟩
    · rw [bigDropRow, if_neg hlen, hmax, hlast]
      dsimp only
      rw [if_neg (by norm_num : ¬ (100 : ℚ) ≤ 0),
        if_pos (by rw [hdrop]; norm_num : (20 : ℚ) ≤ dropPctOf 100 70)]
    · show roundTo 1 (dropPctOf 100 70) = 30
      rw [hdrop]
      decide
  · rw [bigDropRow, if_neg hlen, hmax, hlast]
    dsimp only
    rw [if_neg (by norm_num : ¬ (100 : ℚ) ≤ 0),
      if_neg (by rw [hdrop]; norm_num : ¬ (35 : ℚ) ≤ dropPctOf 100 70)]

/-- C6: for every symbol with at least 20 bars whose 6-month high is 100 and
whose last close is 70, screen_big_drops computes Drop % = 30.0 and includes
the symbol at threshold 20 but excludes it at threshold 35. -/
theorem big_drops_hundred_seventy (ds : List RawRow) (sym : String)
    (hmem : ∃ r ∈ ds, r.symbol = sym)
    (h20 : 20 ≤ (groupSeries ds sym).close.length)
    (hmax : (groupSeries ds sym).high.max? = some 100)
    (hlast : (groupSeries ds sym).close.getLast? = some 70) :
    (∃ r ∈ screen_big_drops 20 ds, r.symbol = sym ∧ r.drop = 30) ∧
    (∀ r ∈ screen_big_drops 35 ds, r.symbol ≠ sym) := by
  obtain ⟨⟨row, hrow, hsymr, hdropr⟩, hnone⟩ :=
    bigDropRow_hundred_seventy (b := groupSeries ds sym) sym h20 hmax hlast
  constructor
  · refine ⟨row, ?_, hsymr, hdropr⟩
    rw [screen_big_drops, screen_big_drops_groups, List.mem_insertionSort]
    apply List.mem_filterMap.mpr
    refine ⟨(sym, ds.filter fun r => r.symbol = sym), groupBySymbol_mem_keys hmem, ?_⟩
    exact hrow
  · intro r hr hsym
    rw [screen_big_drops, screen_big_drops_groups, List.mem_insertionSort] at hr
    obtain ⟨g, hg, hgr⟩ := List.mem_filterMap.mp hr
    have hg1 : g.1 = sym := by
      rw [← hsym, bigDropRow_symbol hgr]
    have hg2 := mem_groupBySymbol hg
    rw [hg1] at hg2
    rw [hg2, hg1] at hgr
    have : bigDropRow sym 35 (groupSeries ds sym) = some r := hgr
    rw [hnone] at this
    exact absurd this (by simp)

/-! ### Tab 7: Death Cross (screener_red_flags.screen_death_cross) -/

structure DeathRow where
  symbol : String
  price : ℚ
  dma50 : Option ℚ
  dma200 : Option ℚ
  flag : String
deriving DecidableEq

/-- Per-symbol body of screen_death_cross: needs 210 bars, keeps the symbol
when the detector reports DEATH; rows appear in group order (no sort). -/
def deathCrossRow (sym : String) (lookback : ℕ) (b : Bars) : Option DeathRow :=
  if b.close.length < 210 then none
  else if golden_death_cross b.close lookback = some "DEATH" then
    some { symbol := sym
           price := roundTo 2 (b.close.getLast?.getD 0)
           dma50 := (olast (sma b.close 50)).map (roundTo 2)
           dma200 := (olast (sma b.close 200)).map (roundTo 2)
           flag := "Death Cross" }
  else none

def screen_death_cross_groups (lookback : ℕ) (groups : List (String × List RawRow)) :
    List DeathRow :=
  groups.filterMap fun g => deathCrossRow g.1 lookback (toBars (List.insertionSort dateLe g.2))

/-- def screen_death_cross in screener_red_flags.py. -/
def screen_death_cross (lookback : ℕ) (ds : List RawRow) : List DeathRow :=
  screen_death_cross_groups lookback (groupBySymbol ds)

/-! ### Tab 3: Volume Spikes (screener_volume.screen_volume_spikes) -/

structure VolRow where
  symbol : String
  price : ℚ
  avgVol : ℤ
  recentAvgVol : ℤ
  volRatio : ℚ
  avgDeliveryPct : ℚ
  recentDeliveryPct : ℚ
  deliveryAboveAvg : String
  priceChange : ℚ
deriving DecidableEq

/-- Per-symbol body of screen_volume_spikes.  volume and delivery_pct are
fillna(0); iloc[:-k] and iloc[-k:] become take/drop of length-k suffix (the
screens call this with k = consecutive_days ≥ 1). -/
def volumeSpikeRow (sym : String) (volThresholdPct : ℚ) (k : ℕ) (b : Bars) :
    Option VolRow :=
  if b.close.length < 30 then none
  else
    let volMultiplier := 1 + volThresholdPct / 100
    let volume := b.volume.map fun v => v.getD 0
    let avgVol := listMean (volume.take (volume.length - k))
    if avgVol ≤ 0 then none
    else
      let recentVols := volume.drop (volume.length - k)
      if recentVols.any fun v => decide (v ≤ 0) then none
      else if recentVols.all fun v => decide (avgVol * volMultiplier ≤ v) then
        let recentAvgVol := listMean recentVols
        let deliv := b.deliveryPct.map fun v => v.getD 0
        let avgDelivery := listMean (deliv.take (deliv.length - k))
        let recentDelivery := listMean (deliv.drop (deliv.length - k))
        let priceStart := if k < b.close.length
          then b.close.getD (b.close.length - k - 1) 0
          else b.close.getD 0 0
        let priceEnd := b.close.getLast?.getD 0
        let priceChange := if 0 < priceStart
          then (priceEnd - priceStart) / priceStart * 100 else 0
        some { symbol := sym
               price := roundTo 2 priceEnd
               avgVol := truncInt avgVol
               recentAvgVol := truncInt recentAvgVol
               volRatio := roundTo 1 (recentAvgVol / avgVol)
               avgDeliveryPct := roundTo 1 avgDelivery
               recentDeliveryPct := roundTo 1 recentDelivery
               deliveryAboveAvg := if avgDelivery < recentDelivery then "Yes" else "No"
               priceChange := roundTo 1 priceChange }
      else none

/-- Sort key of screen_volume_spikes: Vol Ratio descending. -/
def volRatioGe (a b : VolRow) : Prop := b.volRatio ≤ a.volRatio

instance : DecidableRel volRatioGe := fun a b => inferInstanceAs (Decidable (b.volRatio ≤ a.volRatio))

def screen_volume_spikes_groups (volThresholdPct : ℚ) (k : ℕ)
    (groups : List (String × List RawRow)) : List VolRow :=
  List.insertionSort volRatioGe
    (groups.filterMap fun g =>
      volumeSpikeRow g.1 volThresholdPct k (toBars (List.insertionSort dateLe g.2)))

/-- def screen_volume_spikes in screener_volume.py. -/
def screen_volume_spikes (volThresholdPct : ℚ) (k : ℕ) (ds : List RawRow) : List VolRow :=
  screen_volume_spikes_groups volThresholdPct k (groupBySymbol ds)

/-! ### Tab 4: Momentum Leaders (screener_momentum.screen_momentum_leaders) -/

structure MomRow where
  symbol : String
  price : ℚ
  high6m : ℚ
  dist : ℚ
  rsiv : ℚ
  st : String
  dma50 : ℚ
  dma200 : ℚ
deriving DecidableEq

/-- Per-symbol body of screen_momentum_leaders.  dist_from_high uses the same
formula as drop_pct; the symbol passes only with price above both DMAs, RSI
in the 55..75 band and a BUY supertrend at the last bar. -/
def momentumRow (sym : String) (b : Bars) : Option MomRow :=
  if b.close.length < 60 then none
  else
    match b.close.getLast? with
    | none => none
    | some price =>
      if price ≤ 0 then none
      else
        match b.high.max? with
        | none => none
        | some high6m =>
          if 10 < dropPctOf high6m price then none
          else
            match olast (sma b.close 50), olast (sma b.close 200) with
            | some dma50v, some dma200v =>
              if dma50v < price ∧ dma200v < price then
                match olast (rsi b.close 14) with
                | some rsiLast =>
                  if rsiLast < 55 ∨ 75 < rsiLast then none
                  else
                    match olastS (supertrend b.high b.low b.close 10 3) with
                    | some st =>
                      if st = "BUY" then
                        some { symbol := sym
                               price := roundTo 2 price
                               high6m := roundTo 2 high6m
                               dist := roundTo 1 (dropPctOf high6m price)
                               rsiv := roundTo 1 rsiLast
                               st := st
                               dma50 := roundTo 2 dma50v
                               dma200 := roundTo 2 dma200v }
                      else none
                    | none => none
                | none => none
              else none
            | _, _ => none

/-- Sort key of screen_momentum_leaders: Dist from High % ascending. -/
def distLe (a b : MomRow) : Prop := a.dist ≤ b.dist

instance : DecidableRel distLe := fun a b => inferInstanceAs (Decidable (a.dist ≤ b.dist))

def screen_momentum_leaders_groups (groups : List (String × List RawRow)) : List MomRow :=
  List.insertionSort distLe
    (groups.filterMap fun g => momentumRow g.1 (toBars (List.insertionSort dateLe g.2)))

/-- def screen_momentum_leaders in screener_momentum.py. -/
def screen_momentum_leaders (ds : List RawRow) : List MomRow :=
  screen_momentum_leaders_groups (groupBySymbol ds)

/-! ### Tab 2: Range-Bound (screener_price.screen_range_bound) -/

/-- Rolling sample standard deviation close.rolling(window=p,
min_periods=p).std() (ddof=1).  The float64 square root is abstracted by the
parameter fsqrt; for p ≤ 1 the sample deviation is NaN. -/
def rollingStd (fsqrt : ℚ → ℚ) (l : List ℚ) (p : ℕ) : List (Option ℚ) :=
  (List.range l.length).map fun i =>
    if 2 ≤ p ∧ p ≤ i + 1 then
      some (fsqrt ((((l.take (i + 1)).drop (i + 1 - p)).map fun x =>
        (x - ((l.take (i + 1)).drop (i + 1 - p)).sum / p) ^ 2).sum / (p - 1)))
    else none

/-- Bollinger bandwidth series: ((upper - lower) / middle) * 100 with
upper/lower = middle ± k·std. -/
def bbBandwidthList (fsqrt : ℚ → ℚ) (close : List ℚ) (p : ℕ) (k : ℚ) :
    List (Option ℚ) :=
  List.zipWith
    (fun m s =>
      match m, s with
      | some m, some s => some (((m + k * s) - (m - k * s)) / m * 100)
      | _, _ => none)
    (sma close p) (rollingStd fsqrt close p)

structure RangeRow where
  symbol : String
  rangeLow : ℚ
  rangeHigh : ℚ
  midpoint : ℚ
  widthPct : ℚ
  bbBandwidth : Option ℚ
  days : ℕ
deriving DecidableEq

/-- Window sizes tried by screen_range_bound, in order: range(min(len, 60),
min_days - 1, -1), i.e. from min(len, 60) decreasing down to min_days. -/
def windowsList (n minDays : ℕ) : List ℕ :=
  (List.range (min n 60 + 1 - minDays)).map fun j => min n 60 - j

/-- Python iloc[-w:]: the final w entries for w ≥ 1, the entire series when
w = 0 (since -0 is 0). -/
def lastWindow (close : List ℚ) (w : ℕ) : List ℚ :=
  if w = 0 then close else close.drop (close.length - w)

/-- Acceptance test of one window: positive midpoint (the midpoint ≤ 0 case is
skipped by continue) and width within range_pct. -/
def rbPred (close : List ℚ) (rangePct : ℚ) (w : ℕ) : Bool :=
  match (lastWindow close w).max?, (lastWindow close w).min? with
  | some hi, some lo =>
    decide (0 < (hi + lo) / 2) && decide ((hi - lo) / ((hi + lo) / 2) * 100 ≤ rangePct)
  | _, _ => false

/-- First (longest) accepted window of the descending search, as the break in
screen_range_bound keeps it. -/
def rangeBoundWindow (close : List ℚ) (rangePct : ℚ) (minDays : ℕ) : Option ℕ :=
  (windowsList close.length minDays).find? (rbPred close rangePct)

/-- Per-symbol body of screen_range_bound. -/
def rangeBoundRow (fsqrt : ℚ → ℚ) (sym : String) (rangePct : ℚ) (minDays : ℕ)
    (b : Bars) : Option RangeRow :=
  if b.close.length < minDays + 5 then none
  else
    (rangeBoundWindow b.close rangePct minDays).map fun w =>
      let hi := ((lastWindow b.close w).max?).getD 0
      let lo := ((lastWindow b.close w).min?).getD 0
      { symbol := sym
        rangeLow := roundTo 2 lo
        rangeHigh := roundTo 2 hi
        midpoint := roundTo 2 ((hi + lo) / 2)
        widthPct := roundTo 1 ((hi - lo) / ((hi + lo) / 2) * 100)
        bbBandwidth := (olast (bbBandwidthList fsqrt b.close 20 2)).map (roundTo 2)
        days := w }

/-- Sort key of screen_range_bound: BB Bandwidth ascending, NaN last. -/
def obwLe : Option ℚ → Option ℚ → Prop
  | some a, some b => a ≤ b
  | some _, none => True
  | none, some _ => False
  | none, none => True

instance : DecidableRel obwLe
  | some a, some b => inferInstanceAs (Decidable (a ≤ b))
  | some _, none => inferInstanceAs (Decidable True)
  | none, some _ => inferInstanceAs (Decidable False)
  | none, none => inferInstanceAs (Decidable True)

def bwLe (a b : RangeRow) : Prop := obwLe a.bbBandwidth b.bbBandwidth

instance : DecidableRel bwLe := fun a b => inferInstanceAs (Decidable (obwLe a.bbBandwidth b.bbBandwidth))

def screen_range_bound_groups (fsqrt : ℚ → ℚ) (rangePct : ℚ) (minDays : ℕ)
    (groups : List (String × List RawRow)) : List RangeRow :=
  List.insertionSort bwLe
    (groups.filterMap fun g =>
      rangeBoundRow fsqrt g.1 rangePct minDays (toBars (List.insertionSort dateLe g.2)))

/-- def screen_range_bound in screener_price.py. -/
def screen_range_bound (fsqrt : ℚ → ℚ) (rangePct : ℚ) (minDays : ℕ)
    (ds : List RawRow) : List RangeRow :=
  screen_range_bound_groups fsqrt rangePct minDays (groupBySymbol ds)

/-! ### Claim C5: insufficient history is silently skipped -/

theorem toBars_close_length (rows : List RawRow) : (toBars rows).close.length = rows.length := by
  simp [toBars]

theorem filterMap_eq_filterMap_filter {α β : Type} (f : α → Option β) (p : α → Bool)
    (h : ∀ a, p a = false → f a = none) :
    ∀ l : List α, l.filterMap f = (l.filter p).filterMap f := by
  intro l
  induction l with
  | nil => rfl
  | cons x xs ih =>
    by_cases hp : p x = true
    · rw [List.filter_cons_of_pos hp, List.filterMap_cons, List.filterMap_cons, ih]
    · have hfalse : p x = false := by simpa using hp
      rw [List.filter_cons_of_neg (by simp [hfalse]), List.filterMap_cons, h x hfalse, ih]

/-- C5: a symbol with fewer bars than a screen's minimum history produces no
result row (per-symbol functions return none below 20 rows for Big Drops and
210 for Death Cross), and dropping the short groups leaves either screen's
output unchanged — a short or failing symbol never perturbs the rows of the
remaining symbols; finally, at dataset level a symbol with fewer than 20 bars
never appears in screen_big_drops output. -/
theorem insufficient_history_skipped :
    (∀ (sym : String) (thr : ℚ) (b : Bars), b.close.length < 20 →
      bigDropRow sym thr b = none) ∧
    (∀ (sym : String) (lb : ℕ) (b : Bars), b.close.length < 210 →
      deathCrossRow sym lb b = none) ∧
    (∀ (thr : ℚ) (groups : List (String × List RawRow)),
      screen_big_drops_groups thr groups =
        screen_big_drops_groups thr (groups.filter fun g => decide (20 ≤ g.2.length))) ∧
    (∀ (lb : ℕ) (groups : List (String × List RawRow)),
      screen_death_cross_groups lb groups =
        screen_death_cross_groups lb (groups.filter fun g => decide (210 ≤ g.2.length))) ∧
    (∀ (thr : ℚ) (ds : List RawRow) (sym : String),
      (ds.filter fun r => r.symbol = sym).length < 20 →
      ∀ r ∈ screen_big_drops thr ds, r.symbol ≠ sym) := by
  have h1 : ∀ (sym : String) (thr : ℚ) (b : Bars), b.close.length < 20 →
      bigDropRow sym thr b = none := by
    intro sym thr b h
    rw [bigDropRow, if_pos h]
  have h2 : ∀ (sym : String) (lb : ℕ) (b : Bars), b.close.length < 210 →
      deathCrossRow sym lb b = none := by
    intro sym lb b h
    rw [deathCrossRow, if_pos h]
  refine ⟨h1, h2, ?_, ?_, ?_⟩
  · intro thr groups
    rw [screen_big_drops_groups, screen_big_drops_groups]
    rw [filterMap_eq_filterMap_filter _ (fun g => decide (20 ≤ g.2.length))]
    intro g hg
    apply h1
    rw [toBars_close_length, List.length_insertionSort]
    simpa using hg
  · intro lb groups
    rw [screen_death_cross_groups, screen_death_cross_groups]
    rw [filterMap_eq_filterMap_filter _ (fun g => decide (210 ≤ g.2.length))]
    intro g hg
    apply h2
    rw [toBars_close_length, List.length_insertionSort]
    simpa using hg
  · intro thr ds sym hshort r hr hsym
    rw [screen_big_drops, screen_big_drops_groups, List.mem_insertionSort] at hr
    obtain ⟨g, hg, hgr⟩ := List.mem_filterMap.mp hr
    have hg1 : g.1 = sym := by rw [← hsym, bigDropRow_symbol hgr]
    have hg2 := mem_groupBySymbol hg
    rw [hg1] at hg2
    rw [hg2, hg1] at hgr
    have hnone : bigDropRow sym thr (toBars (List.insertionSort dateLe
        (ds.filter fun r => r.symbol = sym))) = none := by
      apply h1
      rw [toBars_close_length, List.length_insertionSort]
      exact hshort
    rw [hnone] at hgr
    exact absurd hgr (by simp)

/-- Witness for C5 at an empty per-symbol series. -/
theorem insufficient_history_witness : bigDropRow "AAA" 20 (toBars []) = none :=
  insufficient_history_skipped.1 "AAA" 20 (toBars []) (by decide)

/-! ### Claim C8: symbols are unique within one result set -/

theorem volumeSpikeRow_symbol {sym : String} {thr : ℚ} {k : ℕ} {b : Bars} {r : VolRow}
    (h : volumeSpikeRow sym thr k b = some r) : r.symbol = sym := by
  rw [volumeSpikeRow] at h
  simp only at h
  split_ifs at h <;>
    · have hinj := Option.some.inj h
      rw [← hinj]

theorem filterMap_symbols_sublist {β : Type} (f : String × List RawRow → Option β)
    (symOf : β → String) (hf : ∀ g r, f g = some r → symOf r = g.1) :
    ∀ groups : List (String × List RawRow),
      ((groups.filterMap f).map symOf).Sublist (groups.map fun g => g.1) := by
  intro groups
  induction groups with
  | nil => simp
  | cons g gs ih =>
    rw [List.filterMap_cons]
    cases hfg : f g with
    | none =>
      rw [List.map_cons]
      exact ih.cons g.1
    | some r =>
      rw [List.map_cons, List.map_cons, hf g r hfg]
      exact ih.cons₂ g.1

/-- C8: for every input dataset, each screen's result set contains at most
one row per symbol — the symbol column of screen_big_drops and of
screen_volume_spikes has no duplicates. -/
theorem screen_symbols_nodup (thr volThr : ℚ) (k : ℕ) (ds : List RawRow) :
    ((screen_big_drops thr ds).map fun r => r.symbol).Nodup ∧
    ((screen_volume_spikes volThr k ds).map fun r => r.symbol).Nodup := by
  have hkeys := groupBySymbol_keys_nodup ds
  constructor
  · have hsub := filterMap_symbols_sublist
      (fun g => bigDropRow g.1 thr (toBars (List.insertionSort dateLe g.2)))
      (fun r => r.symbol) (fun g r h => bigDropRow_symbol h) (groupBySymbol ds)
    have hnd := hkeys.sublist hsub
    rw [screen_big_drops, screen_big_drops_groups]
    have hperm := (List.perm_insertionSort dropGe
      ((groupBySymbol ds).filterMap fun g =>
        bigDropRow g.1 thr (toBars (List.insertionSort dateLe g.2)))).map
      (fun r : BigDropRow => r.symbol)
    exact hperm.nodup_iff.mpr hnd
  · have hsub := filterMap_symbols_sublist
      (fun g => volumeSpikeRow g.1 volThr k (toBars (List.insertionSort dateLe g.2)))
      (fun r => r.symbol) (fun g r h => volumeSpikeRow_symbol h) (groupBySymbol ds)
    have hnd := hkeys.sublist hsub
    rw [screen_volume_spikes, screen_volume_spikes_groups]
    have hperm := (List.perm_insertionSort volRatioGe
      ((groupBySymbol ds).filterMap fun g =>
        volumeSpikeRow g.1 volThr k (toBars (List.insertionSort dateLe g.2)))).map
      (fun r : VolRow => r.symbol)
    exact hperm.nodup_iff.mpr hnd

/-! ### Claim C2: range-bound keeps the first (longest) accepted window -/

theorem windowsList_mem (n md w : ℕ) :
    w ∈ windowsList n md ↔ md ≤ w ∧ w ≤ min n 60 := by
  rw [windowsList]
  constructor
  · intro h
    obtain ⟨j, hj, hw⟩ := mem_map_range h
    omega
  · intro ⟨h1, h2⟩
    apply List.mem_map.mpr
    refine ⟨min n 60 - w, List.mem_range.mpr (by omega), by omega⟩

theorem windowsList_pairwise (n md : ℕ) :
    (windowsList n md).Pairwise fun a b => b < a := by
  rw [windowsList, List.pairwise_map]
  refine (List.pairwise_lt_range _).imp_of_mem ?_
  intro a b _ hb hab
  have hb2 : b < min n 60 + 1 - md := List.mem_range.mp hb
  omega

theorem find?_pairwise_gt_first {p : ℕ → Bool} :
    ∀ {l : List ℕ}, (l.Pairwise fun a b => b < a) → ∀ {w : ℕ}, l.find? p = some w →
      ∀ w2 ∈ l, w < w2 → p w2 = false := by
  intro l
  induction l with
  | nil => intro _ w h; simp at h
  | cons x xs ih =>
    intro hpw w hf w2 hw2 hlt
    obtain ⟨hhead, htail⟩ := List.pairwise_cons.mp hpw
    cases hx : p x with
    | true =>
      rw [List.find?_cons_of_pos _ hx] at hf
      have hxw : x = w := Option.some.inj hf
      rcases List.mem_cons.mp hw2 with he | hm
      · omega
      · have := hhead w2 hm
        omega
    | false =>
      rw [List.find?_cons_of_neg _ (by simp [hx])] at hf
      rcases List.mem_cons.mp hw2 with he | hm
      · subst he; exact hx
      · exact ih htail hf w2 hm hlt

/-- Synthetic 30-bar series for the final 15 bars flat at 100 and the 15 bars
before alternating between 200 and 100 (ending on 200 at position 14). -/
def rangeBoundDemo : List RawRow :=
  (List.range 30).map fun i =>
    { symbol := "A"
      date := i
      openPrice := 100
      high := 210
      low := 90
      close := if i < 15 then (if i % 2 = 0 then 200 else 100) else 100
      volume := some 1000
      deliveryPct := some 40 }

set_option maxRecDepth 100000 in
/-- C2: the window search of screen_range_bound tries sizes from min(60, n)
down to min_days in that order and keeps the first, i.e. the longest,
accepted window — no longer window is accepted; when no window in that range
is accepted, the symbol is skipped.  Concretely, the synthetic demo series
flat for exactly the final 15 bars with range_pct=5 and min_days=10 reports
Days in Range = 15. -/
theorem range_bound_longest_first :
    (∀ (n md w : ℕ), w ∈ windowsList n md ↔ md ≤ w ∧ w ≤ min n 60) ∧
    (∀ (close : List ℚ) (rp : ℚ) (md w : ℕ),
      rangeBoundWindow close rp md = some w →
      w ∈ windowsList close.length md ∧ rbPred close rp w = true ∧
      ∀ w2 ∈ windowsList close.length md, w < w2 → rbPred close rp w2 = false) ∧
    (∀ (close : List ℚ) (rp : ℚ) (md : ℕ),
      rangeBoundWindow close rp md = none →
      ∀ w ∈ windowsList close.length md, rbPred close rp w = false) ∧
    (∃ r ∈ screen_range_bound (fun _ => 0) 5 10 rangeBoundDemo,
      r.symbol = "A" ∧ r.days = 15) := by
  refine ⟨windowsList_mem, ?_, ?_, ?_⟩
  · intro close rp md w hf
    rw [rangeBoundWindow] at hf
    refine ⟨List.mem_of_find?_eq_some hf, List.find?_some hf, ?_⟩
    exact find?_pairwise_gt_first (windowsList_pairwise _ _) hf
  · intro close rp md hf w hw
    rw [rangeBoundWindow] at hf
    have := List.find?_eq_none.mp hf w hw
    simpa using this
  · decide

/-- Close column of the demo series, as a plain list. -/
def rangeBoundDemoClose : List ℚ :=
  (List.range 30).map fun i => if i < 15 then (if i % 2 = 0 then 200 else 100) else 100

set_option maxRecDepth 100000 in
set_option maxHeartbeats 1000000 in
/-- Witness for C2: the first-accepted-window characterisation applied at the
demo close series. -/
theorem range_bound_witness :
    15 ∈ windowsList rangeBoundDemoClose.length 10 ∧
    rbPred rangeBoundDemoClose 5 15 = true ∧
    ∀ w2 ∈ windowsList rangeBoundDemoClose.length 10, 15 < w2 →
      rbPred rangeBoundDemoClose 5 w2 = false :=
  range_bound_longest_first.2.1 rangeBoundDemoClose 5 10 15 (by decide)

/-! ### Claim C10: result tables always carry the documented columns

pd.DataFrame(results) derives its columns from the keys of the first result
dict (all dicts share one shape), while the empty branch constructs the
column list explicitly; a table is modelled as that column list plus the
rows. -/

/-- Columns of the empty big-drops frame, as declared in screener_price.py. -/
def bigDropCols : List String := ["Symbol", "Current Price", "6M High", "Drop %", "RSI"]

/-- Keys of one big-drops result dict, in insertion order. -/
def bigDropRowKeys (_ : BigDropRow) : List String :=
  ["Symbol", "Current Price", "6M High", "Drop %", "RSI"]

def screen_big_drops_table (thr : ℚ) (ds : List RawRow) :
    List String × List BigDropRow :=
  match screen_big_drops thr ds with
  | [] => (bigDropCols, [])
  | r :: rs => (bigDropRowKeys r, r :: rs)

/-- Columns of the empty momentum frame, as declared in screener_momentum.py. -/
def momentumCols : List String :=
  ["Symbol", "Price", "6M High", "Dist from High %", "RSI", "Supertrend", "50 DMA", "200 DMA"]

/-- Keys of one momentum result dict, in insertion order. -/
def momentumRowKeys (_ : MomRow) : List String :=
  ["Symbol", "Price", "6M High", "Dist from High %", "RSI", "Supertrend", "50 DMA", "200 DMA"]

def screen_momentum_leaders_table (ds : List RawRow) : List String × List MomRow :=
  match screen_momentum_leaders ds with
  | [] => (momentumCols, [])
  | r :: rs => (momentumRowKeys r, r :: rs)

/-- Columns of the empty death-cross frame, as declared in
screener_red_flags.py. -/
def deathCrossCols : List String := ["Symbol", "Price", "50 DMA", "200 DMA", "Flag"]

/-- Keys of one death-cross result dict, in insertion order. -/
def deathCrossRowKeys (_ : DeathRow) : List String :=
  ["Symbol", "Price", "50 DMA", "200 DMA", "Flag"]

def screen_death_cross_table (lb : ℕ) (ds : List RawRow) :
    List String × List DeathRow :=
  match screen_death_cross lb ds with
  | [] => (deathCrossCols, [])
  | r :: rs => (deathCrossRowKeys r, r :: rs)

/-- C10: for every input dataset each screening predicate returns a table
whose column list is exactly the screen's documented column list, whether or
not any symbol matched; an empty match set yields an empty table with the
same named columns. -/
theorem screen_tables_columns (thr : ℚ) (lb : ℕ) (ds : List RawRow) :
    (screen_big_drops_table thr ds).1 = bigDropCols ∧
    (screen_momentum_leaders_table ds).1 = momentumCols ∧
    (screen_death_cross_table lb ds).1 = deathCrossCols := by
  refine ⟨?_, ?_, ?_⟩
  · rcases h : screen_big_drops thr ds with _ | ⟨r, rs⟩ <;>
      simp [screen_big_drops_table, h, bigDropRowKeys, bigDropCols]
  · rcases h : screen_momentum_leaders ds with _ | ⟨r, rs⟩ <;>
      simp [screen_momentum_leaders_table, h, momentumRowKeys, momentumCols]
  · rcases h : screen_death_cross lb ds with _ | ⟨r, rs⟩ <;>
      simp [screen_death_cross_table, h, deathCrossRowKeys, deathCrossCols]

/-- Dataset for the C6 witness: 20 bars of one symbol, 6-month high 100,
last close 70. -/
def bigDropDemo : List RawRow :=
  (List.range 20).map fun i =>
    { symbol := "AAA"
      date := i
      openPrice := 90
      high := if i = 0 then 100 else 90
      low := 50
      close := if i = 19 then 70 else 80
      volume := some 10
      deliveryPct := some 40 }

set_option maxRecDepth 40000 in
/-- Witness for C6 at the demo dataset. -/
theorem big_drops_witness :
    (∃ r ∈ screen_big_drops 20 bigDropDemo, r.symbol = "AAA" ∧ r.drop = 30) ∧
    (∀ r ∈ screen_big_drops 35 bigDropDemo, r.symbol ≠ "AAA") :=
  big_drops_hundred_seventy bigDropDemo "AAA" (by decide) (by decide) (by decide) (by decide)

/-! ### High-pledge screens (claim C9)

screener_red_flags.screen_high_pledge and screener_promoter.screen_high_pledge
both select the latest quarter of every symbol and flag pledge percentages at
or above the threshold.  A promoter record carries the to_numeric-coerced
holdings columns; quarters are abstracted to integers preserving their order.
The PromoterRecord data model keys records by (symbol, quarter), so both
pandas sorts select the same latest row whatever their tie behaviour. -/

structure PromRec where
  symbol : String
  quarter : ℤ
  promoterPct : Option ℚ
  pledgePct : Option ℚ
  fiiPct : Option ℚ
  diiPct : Option ℚ
deriving DecidableEq

/-- pledge_pct after pd.to_numeric(..., errors="coerce").fillna(0). -/
def pledgeOf (r : PromRec) : ℚ := r.pledgePct.getD 0

/-- Quarter-descending order of df.sort_values("quarter", ascending=False). -/
def quarterGe (a b : PromRec) : Prop := b.quarter ≤ a.quarter

instance : DecidableRel quarterGe := fun a b => inferInstanceAs (Decidable (b.quarter ≤ a.quarter))

instance : IsTotal PromRec quarterGe := ⟨fun a b => le_total b.quarter a.quarter⟩

instance : IsTrans PromRec quarterGe :=
  ⟨fun _ _ _ h1 h2 => le_trans h2 h1⟩

/-- Lexicographic order of df.sort_values(["symbol", "quarter"],
ascending=[True, False]). -/
def symbolQuarterLe (a b : PromRec) : Prop :=
  a.symbol < b.symbol ∨ (a.symbol = b.symbol ∧ b.quarter ≤ a.quarter)

instance : DecidableRel symbolQuarterLe := fun a b =>
  inferInstanceAs (Decidable (_ ∨ _))

instance : IsTotal PromRec symbolQuarterLe := by
  constructor
  intro a b
  rcases lt_trichotomy a.symbol b.symbol with h | h | h
  · exact Or.inl (Or.inl h)
  · rcases le_total b.quarter a.quarter with hq | hq
    · exact Or.inl (Or.inr ⟨h, hq⟩)
    · exact Or.inr (Or.inr ⟨h.symm, hq⟩)
  · exact Or.inr (Or.inl h)

instance : IsTrans PromRec symbolQuarterLe := by
  constructor
  intro a b c hab hbc
  rcases hab with h1 | ⟨h1, hq1⟩
  · rcases hbc with h2 | ⟨h2, hq2⟩
    · exact Or.inl (lt_trans h1 h2)
    · exact Or.inl (h2 ▸ h1)
  · rcases hbc with h2 | ⟨h2, hq2⟩
    · exact Or.inl (h1 ▸ h2)
    · exact Or.inr ⟨h1.trans h2, le_trans hq2 hq1⟩

structure PledgeRowRF where
  symbol : String
  promoterPct : Option ℚ
  pledge : ℚ
  quarter : ℤ
deriving DecidableEq

/-- Sort key of both screens: Pledge % descending. -/
def pledgeGeRF (a b : PledgeRowRF) : Prop := b.pledge ≤ a.pledge

instance : DecidableRel pledgeGeRF := fun a b => inferInstanceAs (Decidable (b.pledge ≤ a.pledge))

namespace RedFlags

/-- latest = df.sort_values("quarter", ascending=False)
.drop_duplicates("symbol", keep="first"). -/
def rfLatest (df : List PromRec) : List PromRec :=
  dedupeByKeys (fun r => r.symbol) [] (List.insertionSort quarterGe df)

/-- def screen_high_pledge in screener_red_flags.py. -/
def screen_high_pledge (df : List PromRec) (thr : ℚ) : List PledgeRowRF :=
  List.insertionSort pledgeGeRF
    (((rfLatest df).filter fun r => decide (thr ≤ pledgeOf r)).map fun r =>
      { symbol := r.symbol
        promoterPct := r.promoterPct.map (roundTo 1)
        pledge := roundTo 1 (pledgeOf r)
        quarter := r.quarter })

end RedFlags

structure PledgeRowProm where
  symbol : String
  promoterPct : Option ℚ
  pledge : ℚ
deriving DecidableEq

def pledgeGeProm (a b : PledgeRowProm) : Prop := b.pledge ≤ a.pledge

instance : DecidableRel pledgeGeProm := fun a b => inferInstanceAs (Decidable (b.pledge ≤ a.pledge))

/-- One selected line of groupby("symbol").first(). -/
structure PromSel where
  symbol : String
  promoterPct : Option ℚ
  pledgeVal : ℚ
deriving DecidableEq

/-- One symbol's block of the (symbol asc, quarter desc)-sorted frame. -/
def promRowsFor (df : List PromRec) (s : String) : List PromRec :=
  (List.insertionSort symbolQuarterLe df).filter fun r => r.symbol = s

namespace Promoter

/-- The line groupby("symbol").first() selects for one symbol: the first
non-null value of each column of its block; pledge_pct was fillna(0), so its
first value is simply the first (= latest-quarter) row's value. -/
def promSelFor (df : List PromRec) (s : String) : PromSel :=
  { symbol := s
    promoterPct := (promRowsFor df s).findSome? fun r => r.promoterPct
    pledgeVal := (((promRowsFor df s).map pledgeOf).head?).getD 0 }

/-- groupby("symbol").first() over the (symbol asc, quarter desc)-sorted
frame. -/
def promLatest (df : List PromRec) : List PromSel :=
  (dedupeByKeys id []
      ((List.insertionSort symbolQuarterLe df).map fun r => r.symbol)).map
    (promSelFor df)

/-- def screen_high_pledge in screener_promoter.py. -/
def screen_high_pledge (df : List PromRec) (thr : ℚ) : List PledgeRowProm :=
  List.insertionSort pledgeGeProm
    (((promLatest df).filter fun t => decide (thr ≤ t.pledgeVal)).map fun t =>
      { symbol := t.symbol
        promoterPct := t.promoterPct.map (roundTo 1)
        pledge := roundTo 1 t.pledgeVal })

end Promoter

/-- Spec side of the refinement claim: rec is the latest-quarter record of
symbol s in df. -/
def isLatestFor (df : List PromRec) (s : String) (rec : PromRec) : Prop :=
  rec ∈ df ∧ rec.symbol = s ∧ ∀ x ∈ df, x.symbol = s → x.quarter ≤ rec.quarter

theorem find?_pairwise_rel {α : Type} {R : α → α → Prop} {p : α → Bool} :
    ∀ {l : List α}, l.Pairwise R → ∀ {r : α}, l.find? p = some r →
      ∀ x ∈ l, p x = true → x = r ∨ R r x := by
  intro l
  induction l with
  | nil => intro _ r h; simp at h
  | cons hd t ih =>
    intro hpw r hf x hx hpx
    obtain ⟨hhead, htail⟩ := List.pairwise_cons.mp hpw
    cases hph : p hd with
    | true =>
      rw [List.find?_cons_of_pos _ hph] at hf
      have hhr : hd = r := Option.some.inj hf
      subst hhr
      rcases List.mem_cons.mp hx with he | hm
      · exact Or.inl he
      · exact Or.inr (hhead x hm)
    | false =>
      rw [List.find?_cons_of_neg _ (by simp [hph])] at hf
      rcases List.mem_cons.mp hx with he | hm
      · subst he; rw [hph] at hpx; exact absurd hpx (by simp)
      · exact ih htail hf x hm hpx

theorem rfLatest_isLatest {df : List PromRec} {r : PromRec}
    (h : r ∈ RedFlags.rfLatest df) : isLatestFor df r.symbol r := by
  rw [RedFlags.rfLatest, mem_dedupeByKeys] at h
  obtain ⟨-, hfind⟩ := h
  have hmem : r ∈ List.insertionSort quarterGe df := List.mem_of_find?_eq_some hfind
  have hdf : r ∈ df := (List.perm_insertionSort quarterGe df).mem_iff.mp hmem
  refine ⟨hdf, rfl, ?_⟩
  intro x hx hsx
  have hxs : x ∈ List.insertionSort quarterGe df :=
    (List.perm_insertionSort quarterGe df).mem_iff.mpr hx
  have hsorted : (List.insertionSort quarterGe df).Pairwise quarterGe :=
    List.sorted_insertionSort quarterGe df
  rcases find?_pairwise_rel hsorted hfind x hxs (by simp [hsx]) with he | hrel
  · rw [he]
  · exact hrel

theorem isLatestFor_unique {df : List PromRec} {s : String} {r1 r2 : PromRec}
    (hkey : (df.map fun r => (r.symbol, r.quarter)).Nodup)
    (h1 : isLatestFor df s r1) (h2 : isLatestFor df s r2) : r1 = r2 := by
  obtain ⟨hdf1, hs1, hmax1⟩ := h1
  obtain ⟨hdf2, hs2, hmax2⟩ := h2
  have hq : r1.quarter = r2.quarter :=
    le_antisymm (hmax2 r1 hdf1 hs1) (hmax1 r2 hdf2 hs2)
  exact List.inj_on_of_nodup_map hkey hdf1 hdf2
    (by rw [Prod.mk.injEq]; exact ⟨hs1.trans hs2.symm, hq⟩)

theorem isLatest_mem_rfLatest {df : List PromRec} {s : String} {rec : PromRec}
    (hkey : (df.map fun r => (r.symbol, r.quarter)).Nodup)
    (h : isLatestFor df s rec) : rec ∈ RedFlags.rfLatest df := by
  obtain ⟨hdf, hsym, hmax⟩ := h
  have hsome : ((List.insertionSort quarterGe df).find? fun x =>
      decide (x.symbol = rec.symbol)).isSome := by
    rw [List.find?_isSome]
    exact ⟨rec, (List.perm_insertionSort quarterGe df).mem_iff.mpr hdf, by simp⟩
  obtain ⟨r0, hr0⟩ := Option.isSome_iff_exists.mp hsome
  have hr0sym : r0.symbol = rec.symbol := by
    have := List.find?_some hr0
    simpa using this
  have hr0df : r0 ∈ df :=
    (List.perm_insertionSort quarterGe df).mem_iff.mp (List.mem_of_find?_eq_some hr0)
  have hle1 : rec.quarter ≤ r0.quarter := by
    have hsorted : (List.insertionSort quarterGe df).Pairwise quarterGe :=
      List.sorted_insertionSort quarterGe df
    rcases find?_pairwise_rel hsorted hr0 rec
      ((List.perm_insertionSort quarterGe df).mem_iff.mpr hdf) (by simp) with he | hrel
    · rw [he]
    · exact hrel
  have hle2 : r0.quarter ≤ rec.quarter := hmax r0 hr0df (hr0sym.trans hsym)
  have heq : r0 = rec :=
    List.inj_on_of_nodup_map hkey hr0df hdf
      (by rw [Prod.mk.injEq]; exact ⟨hr0sym, le_antisymm hle2 hle1⟩)
  rw [RedFlags.rfLatest, mem_dedupeByKeys]
  refine ⟨by simp, ?_⟩
  rw [← heq]
  rw [heq]
  exact heq ▸ hr0

theorem exists_isLatest {df : List PromRec} {s : String}
    (h : ∃ x ∈ df, x.symbol = s) : ∃ rec, isLatestFor df s rec := by
  have hsome : ((List.insertionSort quarterGe df).find? fun x =>
      decide (x.symbol = s)).isSome := by
    rw [List.find?_isSome]
    obtain ⟨x, hx, hsx⟩ := h
    exact ⟨x, (List.perm_insertionSort quarterGe df).mem_iff.mpr hx, by simp [hsx]⟩
  obtain ⟨r0, hr0⟩ := Option.isSome_iff_exists.mp hsome
  have hr0sym : r0.symbol = s := by
    have := List.find?_some hr0
    simpa using this
  have hr0df : r0 ∈ df :=
    (List.perm_insertionSort quarterGe df).mem_iff.mp (List.mem_of_find?_eq_some hr0)
  refine ⟨r0, hr0df, hr0sym, ?_⟩
  intro x hx hsx
  have hsorted : (List.insertionSort quarterGe df).Pairwise quarterGe :=
    List.sorted_insertionSort quarterGe df
  rcases find?_pairwise_rel hsorted hr0 x
    ((List.perm_insertionSort quarterGe df).mem_iff.mpr hx) (by simp [hsx]) with he | hrel
  · rw [he]
  · exact hrel

theorem promRowsFor_latest_head {df : List PromRec} {s : String} {rec : PromRec}
    (hkey : (df.map fun r => (r.symbol, r.quarter)).Nodup)
    (hlat : isLatestFor df s rec) :
    (((promRowsFor df s).map pledgeOf).head?).getD 0 = pledgeOf rec := by
  obtain ⟨hdf, hsym, hmax⟩ := hlat
  have hrecmem : rec ∈ promRowsFor df s := by
    rw [promRowsFor, List.mem_filter]
    exact ⟨(List.perm_insertionSort symbolQuarterLe df).mem_iff.mpr hdf, by simp [hsym]⟩
  rcases hrows : promRowsFor df s with _ | ⟨r0, rest⟩
  · rw [hrows] at hrecmem; simp at hrecmem
  · have hr0mem : r0 ∈ promRowsFor df s := by
      rw [hrows]; exact List.mem_cons_self _ _
    rw [promRowsFor] at hr0mem
    have hr0filter := List.mem_filter.mp hr0mem
    have hr0df : r0 ∈ df :=
      (List.perm_insertionSort symbolQuarterLe df).mem_iff.mp hr0filter.1
    have hr0sym : r0.symbol = s := by simpa using hr0filter.2
    have hpw : (promRowsFor df s).Pairwise symbolQuarterLe := by
      rw [promRowsFor]
      exact List.Pairwise.filter _ (List.sorted_insertionSort symbolQuarterLe df)
    rw [hrows] at hpw
    obtain ⟨hhead, -⟩ := List.pairwise_cons.mp hpw
    have hr0max : ∀ x ∈ df, x.symbol = s → x.quarter ≤ r0.quarter := by
      intro x hx hsx
      have hxrows : x ∈ promRowsFor df s := by
        rw [promRowsFor, List.mem_filter]
        exact ⟨(List.perm_insertionSort symbolQuarterLe df).mem_iff.mpr hx, by simp [hsx]⟩
      rw [hrows] at hxrows
      rcases List.mem_cons.mp hxrows with he | hm
      · rw [he]
      · rcases hhead x hm with hlt | ⟨-, hq⟩
        · rw [hr0sym, hsx] at hlt
          exact absurd hlt (lt_irrefl s)
        · exact hq
    have heq : r0 = rec :=
      isLatestFor_unique hkey ⟨hr0df, hr0sym, hr0max⟩ ⟨hdf, hsym, hmax⟩
    simp [heq]

theorem mem_dedupeByKeys_id {α : Type} [DecidableEq α] {l : List α} {a : α} :
    a ∈ dedupeByKeys id [] l ↔ a ∈ l := by
  rw [mem_dedupeByKeys]
  constructor
  · rintro ⟨-, hfind⟩
    exact List.mem_of_find?_eq_some hfind
  · intro h
    exact ⟨by simp, find?_eq_self h⟩

theorem mem_promLatest {df : List PromRec} {t : PromSel} :
    t ∈ Promoter.promLatest df ↔
      (∃ x ∈ df, x.symbol = t.symbol) ∧ t = Promoter.promSelFor df t.symbol := by
  rw [Promoter.promLatest, List.mem_map]
  constructor
  · rintro ⟨s, hs, hts⟩
    have hsym : t.symbol = s := by rw [← hts]; rfl
    rw [mem_dedupeByKeys_id] at hs
    obtain ⟨r, hr, hrs⟩ := List.mem_map.mp hs
    refine ⟨⟨r, (List.perm_insertionSort symbolQuarterLe df).mem_iff.mp hr,
      hrs.trans hsym.symm⟩, ?_⟩
    rw [hsym, hts]
  · rintro ⟨⟨x, hx, hsx⟩, ht⟩
    refine ⟨t.symbol, ?_, ht.symm⟩
    rw [mem_dedupeByKeys_id]
    exact List.mem_map.mpr
      ⟨x, (List.perm_insertionSort symbolQuarterLe df).mem_iff.mpr hx, hsx⟩

theorem mem_screen_rf {df : List PromRec} {thr : ℚ} {row : PledgeRowRF} :
    row ∈ RedFlags.screen_high_pledge df thr ↔
      ∃ rec ∈ RedFlags.rfLatest df, thr ≤ pledgeOf rec ∧
        row = { symbol := rec.symbol
                promoterPct := rec.promoterPct.map (roundTo 1)
                pledge := roundTo 1 (pledgeOf rec)
                quarter := rec.quarter } := by
  rw [RedFlags.screen_high_pledge, (List.perm_insertionSort _ _).mem_iff, List.mem_map]
  constructor
  · rintro ⟨rec, hrec, hrow⟩
    have hsplit := List.mem_filter.mp hrec
    exact ⟨rec, hsplit.1, by simpa using hsplit.2, hrow.symm⟩
  · rintro ⟨rec, hmem, hthr, hrow⟩
    exact ⟨rec, List.mem_filter.mpr ⟨hmem, by simpa using hthr⟩, hrow.symm⟩

theorem mem_screen_prom {df : List PromRec} {thr : ℚ} {row : PledgeRowProm} :
    row ∈ Promoter.screen_high_pledge df thr ↔
      ∃ sel ∈ Promoter.promLatest df, thr ≤ sel.pledgeVal ∧
        row = { symbol := sel.symbol
                promoterPct := sel.promoterPct.map (roundTo 1)
                pledge := roundTo 1 sel.pledgeVal } := by
  rw [Promoter.screen_high_pledge, (List.perm_insertionSort _ _).mem_iff, List.mem_map]
  constructor
  · rintro ⟨sel, hsel, hrow⟩
    have hsplit := List.mem_filter.mp hsel
    exact ⟨sel, hsplit.1, by simpa using hsplit.2, hrow.symm⟩
  · rintro ⟨sel, hmem, hthr, hrow⟩
    exact ⟨sel, List.mem_filter.mpr ⟨hmem, by simpa using hthr⟩, hrow.symm⟩

/-- C9: the two independent screen_high_pledge implementations flag exactly
the same set of symbols — those whose latest-quarter pledge percentage is at
least the threshold — and report the same rounded Pledge % for each flagged
symbol.  The hypothesis states the promoter data model: one record per
(symbol, quarter) pair. -/
theorem high_pledge_screens_agree (df : List PromRec) (thr : ℚ)
    (hkey : (df.map fun r => (r.symbol, r.quarter)).Nodup) :
    (∀ s : String,
      ((∃ r ∈ RedFlags.screen_high_pledge df thr, r.symbol = s) ↔
        ∃ rec, isLatestFor df s rec ∧ thr ≤ pledgeOf rec) ∧
      ((∃ r ∈ Promoter.screen_high_pledge df thr, r.symbol = s) ↔
        ∃ rec, isLatestFor df s rec ∧ thr ≤ pledgeOf rec)) ∧
    (∀ r1 ∈ RedFlags.screen_high_pledge df thr,
      ∀ r2 ∈ Promoter.screen_high_pledge df thr,
      r1.symbol = r2.symbol → r1.pledge = r2.pledge) := by
  constructor
  · intro s
    constructor
    · constructor
      · rintro ⟨r, hr, hsym⟩
        obtain ⟨rec, hmem, hthr, hrow⟩ := mem_screen_rf.mp hr
        have hrecsym : rec.symbol = s := by
          rw [← hsym, hrow]
        have hlat := rfLatest_isLatest hmem
        rw [hrecsym] at hlat
        exact ⟨rec, hlat, hthr⟩
      · rintro ⟨rec, hlat, hthr⟩
        have hmem := isLatest_mem_rfLatest hkey hlat
        refine ⟨_, mem_screen_rf.mpr ⟨rec, hmem, hthr, rfl⟩, ?_⟩
        exact hlat.2.1
    · constructor
      · rintro ⟨r, hr, hsym⟩
        obtain ⟨sel, hmem, hthr, hrow⟩ := mem_screen_prom.mp hr
        have hselsym : sel.symbol = s := by
          rw [← hsym, hrow]
        obtain ⟨hpresent, hself⟩ := mem_promLatest.mp hmem
        rw [hselsym] at hpresent
        obtain ⟨rec, hlat⟩ := exists_isLatest hpresent
        refine ⟨rec, hlat, ?_⟩
        have hval : sel.pledgeVal =
            (((promRowsFor df sel.symbol).map pledgeOf).head?).getD 0 := by
          rw [hself]; rfl
        rw [hval, hselsym, promRowsFor_latest_head hkey hlat] at hthr
        exact hthr
      · rintro ⟨rec, hlat, hthr⟩
        have hpresent : ∃ x ∈ df, x.symbol = s := ⟨rec, hlat.1, hlat.2.1⟩
        have hselmem : Promoter.promSelFor df s ∈ Promoter.promLatest df := by
          rw [mem_promLatest]
          exact ⟨hpresent, rfl⟩
        have hval := promRowsFor_latest_head hkey hlat
        have hthr2 : thr ≤ (Promoter.promSelFor df s).pledgeVal := by
          show thr ≤ (((promRowsFor df s).map pledgeOf).head?).getD 0
          rw [hval]
          exact hthr
        refine ⟨_, mem_screen_prom.mpr ⟨_, hselmem, hthr2, rfl⟩, rfl⟩
  · rintro r1 hr1 r2 hr2 hsym
    obtain ⟨rec1, hmem1, hthr1, hrow1⟩ := mem_screen_rf.mp hr1
    obtain ⟨sel, hmem2, hthr2, hrow2⟩ := mem_screen_prom.mp hr2
    have hlat1 := rfLatest_isLatest hmem1
    have hs : rec1.symbol = sel.symbol := by
      have h1 : r1.symbol = rec1.symbol := by rw [hrow1]
      have h2 : r2.symbol = sel.symbol := by rw [hrow2]
      rw [← h1, ← h2, hsym]
    obtain ⟨-, hself⟩ := mem_promLatest.mp hmem2
    have hval : sel.pledgeVal =
        (((promRowsFor df sel.symbol).map pledgeOf).head?).getD 0 := by
      rw [hself]; rfl
    have hlat2 : isLatestFor df sel.symbol rec1 := by
      rw [← hs]
      exact hlat1
    have hpl : sel.pledgeVal = pledgeOf rec1 := by
      rw [hval, promRowsFor_latest_head hkey hlat2]
    rw [hrow1, hrow2]
    simp only
    rw [hpl]

/-- Demo promoter dataset: symbol A has quarters 1 and 2 (latest pledge 30),
symbol B a single quarter with pledge 5. -/
def promoDemo : List PromRec :=
  [ { symbol := "A", quarter := 1, promoterPct := some 50, pledgePct := some 10,
      fiiPct := some 5, diiPct := some 5 },
    { symbol := "A", quarter := 2, promoterPct := some 51, pledgePct := some 30,
      fiiPct := some 5, diiPct := some 5 },
    { symbol := "B", quarter := 2, promoterPct := some 40, pledgePct := some 5,
      fiiPct := none, diiPct := none } ]

/-- Witness for C9 at the demo dataset. -/
theorem high_pledge_witness :
    (∃ r ∈ RedFlags.screen_high_pledge promoDemo 20, r.symbol = "A") ↔
      ∃ rec, isLatestFor promoDemo "A" rec ∧ (20 : ℚ) ≤ pledgeOf rec :=
  ((high_pledge_screens_agree promoDemo 20 (by decide)).1 "A").1

end Screener
